import Mathlib

/-!
Verification development for the neoplaylist hybrid playlist assembly engine.

The definitions below are shallow embeddings of the Python sources under
`src/playlist/` (and, where noted, of `src/playlist_api_refinedV15enchanced.py`).
Python strings are modeled as `String`/`List Char`; Python dict-shaped JSON
values as the inductive `JVal`; MongoDB query dictionaries as association
lists of field names to condition values (`MQuery`); numeric scores as `ℚ`
inside the list-processing pipeline and as `ℝ` in the scoring-engine
analysis.  External collaborators (the Mongo collection and the Ollama LLM
service) are modeled as function parameters ("oracles"), mirroring the fact
that the engine only observes their return values.
-/

namespace NeoPlaylist

/-! ## Character-level helpers

The regex character classes of `normalize_title_for_dedupe`
(services.py lines 69-101): `\w` (word chars), `\s` (whitespace), `\d`
(digits), plus an ASCII model of `str.lower`. -/

def isWordChar (c : Char) : Bool := c.isAlphanum || c = '_'

def isSpaceChar (c : Char) : Bool :=
  c = ' ' || c = '\t' || c = '\n' || c = '\r' || c = '\x0b' || c = '\x0c'

def isDigitChar (c : Char) : Bool := c.isDigit

/-- ASCII model of Python `str.lower` on a single character. -/
def lowerChar (c : Char) : Char :=
  if c = 'A' then 'a' else if c = 'B' then 'b' else if c = 'C' then 'c'
  else if c = 'D' then 'd' else if c = 'E' then 'e' else if c = 'F' then 'f'
  else if c = 'G' then 'g' else if c = 'H' then 'h' else if c = 'I' then 'i'
  else if c = 'J' then 'j' else if c = 'K' then 'k' else if c = 'L' then 'l'
  else if c = 'M' then 'm' else if c = 'N' then 'n' else if c = 'O' then 'o'
  else if c = 'P' then 'p' else if c = 'Q' then 'q' else if c = 'R' then 'r'
  else if c = 'S' then 's' else if c = 'T' then 't' else if c = 'U' then 'u'
  else if c = 'V' then 'v' else if c = 'W' then 'w' else if c = 'X' then 'x'
  else if c = 'Y' then 'y' else if c = 'Z' then 'z' else c

/-- Uppercase ASCII letter test (the characters `lowerChar` rewrites). -/
def isUpperChar (c : Char) : Bool :=
  c = 'A' || c = 'B' || c = 'C' || c = 'D' || c = 'E' || c = 'F' || c = 'G' ||
  c = 'H' || c = 'I' || c = 'J' || c = 'K' || c = 'L' || c = 'M' || c = 'N' ||
  c = 'O' || c = 'P' || c = 'Q' || c = 'R' || c = 'S' || c = 'T' || c = 'U' ||
  c = 'V' || c = 'W' || c = 'X' || c = 'Y' || c = 'Z'

theorem upperChar_cases (P : Char → Prop) (c : Char) (h : isUpperChar c = true)
    (hp : ∀ d ∈ ['A','B','C','D','E','F','G','H','I','J','K','L','M',
                 'N','O','P','Q','R','S','T','U','V','W','X','Y','Z'], P d) : P c := by
  simp only [isUpperChar, Bool.or_eq_true, decide_eq_true_eq, or_assoc] at h
  simp only [List.mem_cons, List.not_mem_nil, or_false, forall_eq_or_imp, forall_eq] at hp
  rcases h with rfl | rfl | rfl | rfl | rfl | rfl | rfl | rfl | rfl | rfl | rfl | rfl | rfl |
    rfl | rfl | rfl | rfl | rfl | rfl | rfl | rfl | rfl | rfl | rfl | rfl | rfl <;> tauto

theorem lowerChar_eq_self (c : Char) (h : isUpperChar c = false) : lowerChar c = c := by
  simp only [isUpperChar, Bool.or_eq_false_iff, decide_eq_false_iff_not, and_assoc] at h
  obtain ⟨h1,h2,h3,h4,h5,h6,h7,h8,h9,h10,h11,h12,h13,h14,h15,h16,h17,h18,h19,h20,h21,h22,
    h23,h24,h25,h26⟩ := h
  simp only [lowerChar, if_neg h1, if_neg h2, if_neg h3, if_neg h4, if_neg h5, if_neg h6,
    if_neg h7, if_neg h8, if_neg h9, if_neg h10, if_neg h11, if_neg h12, if_neg h13,
    if_neg h14, if_neg h15, if_neg h16, if_neg h17, if_neg h18, if_neg h19, if_neg h20,
    if_neg h21, if_neg h22, if_neg h23, if_neg h24, if_neg h25, if_neg h26]

theorem isWordChar_lowerChar (c : Char) : isWordChar (lowerChar c) = isWordChar c := by
  cases h : isUpperChar c with
  | false => rw [lowerChar_eq_self c h]
  | true =>
    exact upperChar_cases (fun d => isWordChar (lowerChar d) = isWordChar d) c h (by decide)

theorem isUpperChar_lowerChar (c : Char) : isUpperChar (lowerChar c) = false := by
  cases h : isUpperChar c with
  | false => rw [lowerChar_eq_self c h]; exact h
  | true =>
    exact upperChar_cases (fun d => isUpperChar (lowerChar d) = false) c h (by decide)

/-! ## A small operational regex-substitution engine

`re.sub(pattern, "", s)` scans left to right, removes each non-overlapping
match, and resumes scanning after the end of a match; lookbehind (`\b`)
inspects the original character before the current position.  A matcher
`tm prev s` receives the original previous character and the current suffix
and returns `(consumed, rest)` on a match starting exactly at the head
of `s`. -/

def isWordOpt : Option Char → Bool
  | none => false
  | some c => isWordChar c

/-- Word boundary `\b` between an (optional) left character and right character. -/
def isBoundary (a b : Option Char) : Bool := isWordOpt a != isWordOpt b

abbrev Matcher := Option Char → List Char → Option (List Char × List Char)

/-- Apply one `re.sub(p, "", s)` pass: remove every non-overlapping match,
scanning left to right.  Fuel bounds the recursion; `runSub` supplies
enough for matchers that always consume at least one character. -/
def subAll (tm : Matcher) : Nat → Option Char → List Char → List Char
  | 0, _, s => s
  | _ + 1, _, [] => []
  | fuel + 1, prev, c :: rest =>
    match tm prev (c :: rest) with
    | some (d, r) => subAll tm fuel (d.getLast?.getD c) r
    | none => c :: subAll tm fuel (some c) rest

def runSub (tm : Matcher) (s : List Char) : List Char := subAll tm (s.length + 1) none s

/-- Scan exactly like `subAll` but only report whether any match exists. -/
def noMatchScan (tm : Matcher) : Option Char → List Char → Bool
  | _, [] => true
  | prev, c :: rest => (tm prev (c :: rest)).isNone && noMatchScan tm (some c) rest

theorem subAll_eq_self (tm : Matcher) (fuel : Nat) (prev : Option Char) (s : List Char)
    (h : noMatchScan tm prev s = true) : subAll tm fuel prev s = s := by
  induction fuel generalizing prev s with
  | zero => rfl
  | succ n ih =>
    cases s with
    | nil => rfl
    | cons c rest =>
      simp only [noMatchScan, Bool.and_eq_true, Option.isNone_iff_eq_none] at h
      simp only [subAll, h.1]
      exact congrArg (c :: ·) (ih (some c) rest h.2)

theorem runSub_eq_self (tm : Matcher) (s : List Char)
    (h : noMatchScan tm none s = true) : runSub tm s = s :=
  subAll_eq_self tm _ none s h

/-- A matcher is splitting when every match decomposes its input. -/
def Splitting (tm : Matcher) : Prop :=
  ∀ prev s d r, tm prev s = some (d, r) → s = d ++ r

theorem subAll_sublist (tm : Matcher) (hs : Splitting tm) (fuel : Nat)
    (prev : Option Char) (s : List Char) : (subAll tm fuel prev s).Sublist s := by
  induction fuel generalizing prev s with
  | zero => exact List.Sublist.refl s
  | succ n ih =>
    cases s with
    | nil => exact List.Sublist.refl []
    | cons c rest =>
      simp only [subAll]
      cases hm : tm prev (c :: rest) with
      | some p =>
        obtain ⟨d, r⟩ := p
        have hdec := hs prev (c :: rest) d r hm
        have h1 : (subAll tm n (d.getLast?.getD c) r).Sublist r := ih _ r
        have h2 : r.Sublist (c :: rest) := hdec ▸ List.sublist_append_right d r
        exact h1.trans h2
      | none => exact (ih (some c) rest).cons₂ c

theorem runSub_sublist (tm : Matcher) (hs : Splitting tm) (s : List Char) :
    (runSub tm s).Sublist s := subAll_sublist tm hs _ none s

/-! ## The individual substitution patterns of `normalize_title_for_dedupe`

One matcher per `re.sub` pattern of services.py lines 78-93, in source
order.  Alternatives of an alternation are tried left to right, exactly as
the Python regex engine does; `remastered?` is expanded into the two
literals it can match, tried greedily-first. -/

/-- Matcher for `\s*[\[\(].*?[\]\)]` (services.py line 78): optional
whitespace, an opening bracket, then lazily up to the first closer with no
newline in between. -/
def notCloser (d : Char) : Bool := !(d = ']' || d = ')' || d = '\n')

def tryBrackets : Matcher := fun _ s =>
  match s.dropWhile isSpaceChar with
  | [] => none
  | c :: rest =>
    if c = '[' ∨ c = '(' then
      match rest.dropWhile notCloser with
      | [] => none
      | d :: rest2 =>
        if d = ']' ∨ d = ')' then
          some (s.takeWhile isSpaceChar ++ c :: rest.takeWhile notCloser ++ [d], rest2)
        else none
    else none

/-- True when `alt` is a prefix of `s` and a `\b` boundary holds between the
last character of `alt` and the character of `s` that follows it. -/
def boundaryAfter (alt s : List Char) : Bool :=
  isBoundary alt.getLast? (s.drop alt.length).head?

/-- Find the first alternative (in order) that is a prefix of `s` with a
trailing word boundary, returning the split. -/
def findWordAlt : List (List Char) → List Char → Option (List Char × List Char)
  | [], _ => none
  | alt :: alts, s =>
    if alt.isPrefixOf s && boundaryAfter alt s then some (alt, s.drop alt.length)
    else findWordAlt alts s

/-- Matcher for a pattern of shape `\b(alt₁|alt₂|…)\b` over literal
alternatives. -/
def tryWordAlts (alts : List (List Char)) : Matcher := fun prev s =>
  match s with
  | [] => none
  | c :: _ => if isBoundary prev (some c) then findWordAlt alts s else none

def p1Alts : List (List Char) :=
  ["remastered".data, "remaster".data, "remix".data, "remixed".data, "live".data,
   "version".data, "album version".data, "explicit".data, "clean".data, "single".data,
   "edit".data, "original".data, "demo".data, "acoustic".data, "instrumental".data,
   "radio edit".data, "extended".data, "short".data, "long".data]

def tryP1 : Matcher := tryWordAlts p1Alts

def p2Tails : List (List Char) :=
  ["remaster".data, "version".data, "mix".data, "digital".data, "master".data]

/-- Matcher for `\b(\d{4} remaster|\d{4} version|\d{4} mix|\d{4} digital|\d{4} master)\b`
(services.py line 83). -/
def tryP2 : Matcher := fun prev s =>
  match s with
  | c :: _ =>
    if isBoundary prev (some c) then
      let ds := s.take 4
      if ds.length = 4 ∧ ds.all isDigitChar ∧ (s.drop 4).head? = some ' ' then
        match findWordAlt p2Tails (s.drop 5) with
        | some (alt, r) => some (s.take 5 ++ alt, r)
        | none => none
      else none
    else none
  | [] => none

def p3Alts : List (List Char) :=
  ["feat.".data, "ft.".data, "featuring".data, "with".data, "vs.".data, "pres.".data,
   ['&']]

/-- Matcher for `\b(feat\.|ft\.|featuring|with|vs\.|pres\.|&)\b.*`
(services.py line 84): after the matched alternative and its trailing
boundary, greedy `.*` consumes to the next newline or the end. -/
def notNL (d : Char) : Bool := d ≠ '\n'

def tryP3 : Matcher := fun prev s =>
  match s with
  | [] => none
  | c :: _ =>
    if isBoundary prev (some c) then
      match findWordAlt p3Alts s with
      | some (alt, r) => some (alt ++ r.takeWhile notNL, r.dropWhile notNL)
      | none => none
    else none

def p4Alts : List (List Char) :=
  ["mono".data, "stereo".data, "digital".data, "analog".data, "hi-res".data,
   "hires".data, "lossless".data, "flac".data, "mp3".data, "wav".data, "aiff".data]

def tryP4 : Matcher := tryWordAlts p4Alts

def p5Alts : List (List Char) :=
  ["live".data, "remaster".data, "remix".data, "version".data, "edit".data,
   "demo".data, "acoustic".data]

/-- Try the `p5` alternatives in order: prefix match (no word boundaries in
this pattern), then `.*$`, which succeeds only when the remainder contains
no newline or exactly one final newline. -/
def p5Find : List (List Char) → List Char → Option (List Char × List Char)
  | [], _ => none
  | alt :: alts, u =>
    if alt.isPrefixOf u then
      let tail := u.drop alt.length
      let t := tail.takeWhile notNL
      if t.length = tail.length then some (alt ++ tail, [])
      else if t.length + 1 = tail.length then some (alt ++ t, tail.dropWhile notNL)
      else p5Find alts u
    else p5Find alts u

/-- Matcher for `[-–]\s*(live|remaster|remix|version|edit|demo|acoustic).*$`
(services.py line 86). -/
def tryP5 : Matcher := fun _ s =>
  match s with
  | [] => none
  | c :: rest =>
    if c = '-' ∨ c = '–' then
      match p5Find p5Alts (rest.dropWhile isSpaceChar) with
      | some (d, r) => some (c :: rest.takeWhile isSpaceChar ++ d, r)
      | none => none
    else none

def p6Alts : List (List Char) :=
  ["bonus track".data, "deluxe".data, "special edition".data, "expanded".data,
   "reissue".data, "re-issue".data]

def tryP6 : Matcher := tryWordAlts p6Alts

/-- Lazy search for `.*? soundtrack` with a trailing `\b`: extend the gap
one non-newline character at a time, testing `" soundtrack"` at each stop. -/
def p7FindGap (gap u : List Char) : Option (List Char × List Char) :=
  if " soundtrack".data.isPrefixOf u && boundaryAfter " soundtrack".data u then
    some (gap ++ " soundtrack".data, u.drop 11)
  else
    match u with
    | [] => none
    | c :: rest => if c = '\n' then none else p7FindGap (gap ++ [c]) rest

/-- Matcher for `\b(from .*? soundtrack|original motion picture)\b`
(services.py line 88). -/
def tryP7 : Matcher := fun prev s =>
  match s with
  | [] => none
  | c :: _ =>
    if isBoundary prev (some c) then
      match (if "from ".data.isPrefixOf s then p7FindGap [] (s.drop 5) else none) with
      | some (d, r) => some ("from ".data ++ d, r)
      | none =>
        if "original motion picture".data.isPrefixOf s &&
            boundaryAfter "original motion picture".data s then
          some ("original motion picture".data, s.drop 23)
        else none
    else none

/-- Matcher for `\b(take \d+|alternate|early|rough)\b` (services.py line 89). -/
def tryP8 : Matcher := fun prev s =>
  match s with
  | [] => none
  | c :: _ =>
    if isBoundary prev (some c) then
      match (if "take ".data.isPrefixOf s then
               let t := s.drop 5
               let ds := t.takeWhile isDigitChar
               if ds ≠ [] ∧ isWordOpt (t.dropWhile isDigitChar).head? = false then
                 some ("take ".data ++ ds, t.dropWhile isDigitChar)
               else none
             else none) with
      | some p => some p
      | none => findWordAlt ["alternate".data, "early".data, "rough".data] s
    else none

/-! ## The normalization pipeline -/

/-- Model of `re.sub(r"[^\w\s]", " ", s)` (services.py line 96). -/
def depunct (s : List Char) : List Char :=
  s.map (fun c => if isWordChar c || isSpaceChar c then c else ' ')

/-- Worker for `collapseWs`: the flag records whether the previous character
was part of a whitespace run already replaced by a space. -/
def collapseAux : Bool → List Char → List Char
  | _, [] => []
  | inRun, c :: rest =>
    if isSpaceChar c then
      if inRun then collapseAux true rest else ' ' :: collapseAux true rest
    else c :: collapseAux false rest

/-- Model of `re.sub(r"\s+", " ", s)` (services.py line 97): every maximal
whitespace run becomes one space. -/
def collapseWs (s : List Char) : List Char := collapseAux false s

/-- Model of Python `str.strip()`. -/
def stripChars (s : List Char) : List Char :=
  ((s.dropWhile isSpaceChar).reverse.dropWhile isSpaceChar).reverse

/-- The eight `version_patterns` substitutions of services.py lines 81-93,
applied in source order. -/
def applyVersionPatterns (s : List Char) : List Char :=
  runSub tryP8 (runSub tryP7 (runSub tryP6 (runSub tryP5
    (runSub tryP4 (runSub tryP3 (runSub tryP2 (runSub tryP1 s)))))))

/-- Model of `normalize_title_for_dedupe` (services.py lines 69-101):
lowercase, strip bracketed content, strip the version-marker vocabulary,
replace punctuation by spaces, collapse whitespace and trim. -/
def normalizeCore (s : List Char) : List Char :=
  stripChars (collapseWs (depunct (applyVersionPatterns
    (runSub tryBrackets (s.map lowerChar)))))

def normalize_title_for_dedupe (s : String) : String :=
  if s = "" then "" else String.mk (normalizeCore s.data)

/-! ## Each matcher splits its input -/

theorem findWordAlt_split : ∀ (alts : List (List Char)) (s d r : List Char),
    findWordAlt alts s = some (d, r) → s = d ++ r := by
  intro alts
  induction alts with
  | nil => intro s d r h; simp [findWordAlt] at h
  | cons alt alts ih =>
    intro s d r h
    by_cases hc : (alt.isPrefixOf s && boundaryAfter alt s) = true
    · rw [findWordAlt, if_pos hc] at h
      simp only [Option.some.injEq, Prod.mk.injEq] at h
      obtain ⟨rfl, rfl⟩ := h
      obtain ⟨t, rfl⟩ := List.isPrefixOf_iff_prefix.mp (Bool.and_elim_left hc)
      rw [List.drop_left]
    · rw [findWordAlt, if_neg hc] at h
      exact ih s d r h

theorem tryWordAlts_splitting (alts : List (List Char)) : Splitting (tryWordAlts alts) := by
  intro prev s d r h
  cases s with
  | nil => simp [tryWordAlts] at h
  | cons c t =>
    simp only [tryWordAlts] at h
    split at h
    · exact findWordAlt_split alts (c :: t) d r h
    · exact absurd h (by simp)

theorem tryBrackets_splitting : Splitting tryBrackets := by
  intro prev s d r h
  simp only [tryBrackets] at h
  split at h
  · exact absurd h (by simp)
  · rename_i c rest hdw
    split at h
    · split at h
      · exact absurd h (by simp)
      · rename_i d0 rest2 hdw2
        split at h
        · simp only [Option.some.injEq, Prod.mk.injEq] at h
          obtain ⟨rfl, rfl⟩ := h
          have h1 : s.takeWhile isSpaceChar ++ (c :: rest) = s := by
            rw [← hdw, List.takeWhile_append_dropWhile]
          have h2 : rest.takeWhile notCloser ++ (d0 :: rest2) = rest := by
            rw [← hdw2, List.takeWhile_append_dropWhile]
          calc s = s.takeWhile isSpaceChar ++ (c :: rest) := h1.symm
            _ = s.takeWhile isSpaceChar ++ (c :: (rest.takeWhile notCloser ++ (d0 :: rest2))) := by
                rw [h2]
            _ = (s.takeWhile isSpaceChar ++ c :: rest.takeWhile notCloser ++ [d0]) ++ rest2 := by
                simp
        · exact absurd h (by simp)
    · exact absurd h (by simp)

theorem tryP2_splitting : Splitting tryP2 := by
  intro prev s d r h
  cases s with
  | nil => simp [tryP2] at h
  | cons c t =>
    simp only [tryP2] at h
    split at h
    · split at h
      · split at h
        · rename_i halt
          simp only [Option.some.injEq, Prod.mk.injEq] at h
          obtain ⟨rfl, rfl⟩ := h
          have h5 := findWordAlt_split p2Tails ((c :: t).drop 5) _ _ halt
          calc c :: t = (c :: t).take 5 ++ (c :: t).drop 5 := (List.take_append_drop 5 _).symm
            _ = _ := by rw [h5, List.append_assoc]
        · exact absurd h (by simp)
      · exact absurd h (by simp)
    · exact absurd h (by simp)

theorem tryP3_splitting : Splitting tryP3 := by
  intro prev s d r h
  cases s with
  | nil => simp [tryP3] at h
  | cons c t =>
    simp only [tryP3] at h
    split at h
    · split at h
      · rename_i alt rr halt
        simp only [Option.some.injEq, Prod.mk.injEq] at h
        obtain ⟨rfl, rfl⟩ := h
        have h1 := findWordAlt_split p3Alts (c :: t) alt rr halt
        rw [h1, List.append_assoc, List.takeWhile_append_dropWhile]
      · exact absurd h (by simp)
    · exact absurd h (by simp)

theorem p5Find_split : ∀ (alts : List (List Char)) (u d r : List Char),
    p5Find alts u = some (d, r) → u = d ++ r := by
  intro alts
  induction alts with
  | nil => intro u d r h; simp [p5Find] at h
  | cons alt alts ih =>
    intro u d r h
    simp only [p5Find] at h
    split at h
    · rename_i hpre
      obtain ⟨t2, rfl⟩ := List.isPrefixOf_iff_prefix.mp hpre
      rw [List.drop_left] at h
      split at h
      · simp only [Option.some.injEq, Prod.mk.injEq] at h
        obtain ⟨rfl, rfl⟩ := h
        simp
      · split at h
        · simp only [Option.some.injEq, Prod.mk.injEq] at h
          obtain ⟨rfl, rfl⟩ := h
          rw [List.append_assoc, List.takeWhile_append_dropWhile]
        · exact ih _ d r h
    · exact ih u d r h

theorem tryP5_splitting : Splitting tryP5 := by
  intro prev s d r h
  cases s with
  | nil => simp [tryP5] at h
  | cons c t =>
    simp only [tryP5] at h
    split at h
    · split at h
      · rename_i d0 r0 hfind
        simp only [Option.some.injEq, Prod.mk.injEq] at h
        obtain ⟨rfl, rfl⟩ := h
        have h1 := p5Find_split p5Alts (t.dropWhile isSpaceChar) d0 r0 hfind
        have h2 : t.takeWhile isSpaceChar ++ t.dropWhile isSpaceChar = t :=
          List.takeWhile_append_dropWhile ..
        calc c :: t = c :: (t.takeWhile isSpaceChar ++ (d0 ++ r0)) := by rw [← h1, h2]
          _ = (c :: t.takeWhile isSpaceChar ++ d0) ++ r0 := by simp
      · exact absurd h (by simp)
    · exact absurd h (by simp)

theorem p7FindGap_split : ∀ (u gap d r : List Char),
    p7FindGap gap u = some (d, r) → gap ++ u = d ++ r := by
  intro u
  induction u with
  | nil =>
    intro gap d r h
    rw [p7FindGap] at h
    split at h
    · rename_i hc
      obtain ⟨t, ht⟩ := List.isPrefixOf_iff_prefix.mp (Bool.and_elim_left hc)
      simp at ht
    · simp at h
  | cons c rest ih =>
    intro gap d r h
    rw [p7FindGap] at h
    split at h
    · rename_i hc
      obtain ⟨t, ht⟩ := List.isPrefixOf_iff_prefix.mp (Bool.and_elim_left hc)
      simp only [Option.some.injEq, Prod.mk.injEq] at h
      obtain ⟨rfl, rfl⟩ := h
      rw [← ht, List.drop_left' (by rfl), ← List.append_assoc]
    · split at h
      · exact absurd h (by simp)
      · have := ih (gap ++ [c]) d r h
        simpa using this

theorem tryP7_splitting : Splitting tryP7 := by
  intro prev s d r h
  cases s with
  | nil => simp [tryP7] at h
  | cons c t =>
    simp only [tryP7] at h
    split at h
    · split at h
      · rename_i d0 r0 hgap
        simp only [Option.some.injEq, Prod.mk.injEq] at h
        obtain ⟨rfl, rfl⟩ := h
        split at hgap
        · rename_i hpre
          obtain ⟨t2, ht2⟩ := List.isPrefixOf_iff_prefix.mp hpre
          have h1 := p7FindGap_split ((c :: t).drop 5) [] d0 r0 hgap
          simp only [List.nil_append] at h1
          rw [← ht2, List.drop_left' (by rfl)] at h1
          rw [← ht2, h1, List.append_assoc]
        · simp at hgap
      · split at h
        · rename_i hc
          obtain ⟨t2, ht2⟩ := List.isPrefixOf_iff_prefix.mp (Bool.and_elim_left hc)
          simp only [Option.some.injEq, Prod.mk.injEq] at h
          obtain ⟨rfl, rfl⟩ := h
          rw [← ht2, List.drop_left' (by rfl)]
        · exact absurd h (by simp)
    · exact absurd h (by simp)

theorem tryP8_splitting : Splitting tryP8 := by
  intro prev s d r h
  cases s with
  | nil => simp [tryP8] at h
  | cons c t =>
    simp only [tryP8] at h
    split at h
    · split at h
      · rename_i p hp
        simp only [Option.some.injEq] at h
        subst h
        split at hp
        · rename_i hpre
          obtain ⟨t2, ht2⟩ := List.isPrefixOf_iff_prefix.mp hpre
          split at hp
          · simp only [Option.some.injEq, Prod.mk.injEq] at hp
            obtain ⟨rfl, rfl⟩ := hp
            rw [← ht2, List.drop_left' (by rfl), List.append_assoc,
              List.takeWhile_append_dropWhile]
          · simp at hp
        · simp at hp
      · exact findWordAlt_split _ (c :: t) d r h
    · exact absurd h (by simp)

theorem tryP1_splitting : Splitting tryP1 := tryWordAlts_splitting p1Alts

theorem tryP4_splitting : Splitting tryP4 := tryWordAlts_splitting p4Alts

theorem tryP6_splitting : Splitting tryP6 := tryWordAlts_splitting p6Alts

/-! ## Shape invariants of the canonical form

After `depunct`, `collapseWs` and `stripChars` every character is a word
character or a single space, spaces are never adjacent, and the ends are
not spaces.  These invariants make the final three stages idempotent; the
hypotheses of the amended idempotence claim handle the version patterns. -/

theorem isWordChar_of_isSpaceChar_false_of_depunct_mem (t : List Char) (c : Char)
    (hc : c ∈ depunct t) : isWordChar c = true ∨ isSpaceChar c = true := by
  simp only [depunct, List.mem_map] at hc
  obtain ⟨a, _, rfl⟩ := hc
  by_cases h : (isWordChar a || isSpaceChar a) = true
  · rw [if_pos h]
    exact Bool.or_eq_true _ _ ▸ h
  · rw [if_neg h]
    right; rfl

/-- Adjacent-characters relation: no two consecutive whitespace characters. -/
def SpacedApart (a b : Char) : Prop := ¬(isSpaceChar a = true ∧ isSpaceChar b = true)

theorem collapseAux_mem (b : Bool) (s : List Char) (c : Char) (hc : c ∈ collapseAux b s) :
    c = ' ' ∨ (c ∈ s ∧ isSpaceChar c = false) := by
  induction s generalizing b with
  | nil => simp [collapseAux] at hc
  | cons a t ih =>
    simp only [collapseAux] at hc
    split at hc
    · split at hc
      · rcases ih true hc with h | h
        · exact Or.inl h
        · exact Or.inr ⟨List.mem_cons_of_mem a h.1, h.2⟩
      · rcases List.mem_cons.mp hc with rfl | h
        · exact Or.inl rfl
        · rcases ih true h with h' | h'
          · exact Or.inl h'
          · exact Or.inr ⟨List.mem_cons_of_mem a h'.1, h'.2⟩
    · rename_i ha
      rcases List.mem_cons.mp hc with rfl | h
      · exact Or.inr ⟨List.mem_cons_self .., Bool.not_eq_true _ ▸ ha⟩
      · rcases ih false h with h' | h'
        · exact Or.inl h'
        · exact Or.inr ⟨List.mem_cons_of_mem a h'.1, h'.2⟩

theorem collapseAux_head_true (s : List Char) (x : Char)
    (hx : (collapseAux true s).head? = some x) : isSpaceChar x = false := by
  induction s with
  | nil => simp [collapseAux] at hx
  | cons a t ih =>
    simp only [collapseAux] at hx
    split at hx
    · split at hx
      · exact ih hx
      · simp at *
    · rename_i ha
      simp only [List.head?_cons, Option.some.injEq] at hx
      subst hx
      exact Bool.not_eq_true _ ▸ ha

theorem collapseAux_chain (b : Bool) (s : List Char) :
    List.Chain' SpacedApart (collapseAux b s) := by
  induction s generalizing b with
  | nil => simp [collapseAux]
  | cons a t ih =>
    simp only [collapseAux]
    split
    · split
      · exact ih true
      · refine List.chain'_cons'.mpr ⟨?_, ih true⟩
        intro y hy
        intro hcon
        exact absurd (collapseAux_head_true t y hy) (by simp [hcon.2])
    · refine List.chain'_cons'.mpr ⟨?_, ih false⟩
      rename_i ha
      intro y hy hcon
      exact absurd hcon.1 (by simp [ha])

theorem head?_dropWhile_false (p : Char → Bool) (l : List Char) (x : Char)
    (hx : (l.dropWhile p).head? = some x) : p x = false := by
  induction l with
  | nil => simp [List.dropWhile] at hx
  | cons a t ih =>
    rw [List.dropWhile] at hx
    split at hx
    · exact ih hx
    · rename_i ha
      simp only [List.head?_cons, Option.some.injEq] at hx
      subst hx
      exact Bool.not_eq_true _ ▸ ha

theorem dropWhile_eq_self_of_head (p : Char → Bool) (l : List Char)
    (h : ∀ x, l.head? = some x → p x = false) : l.dropWhile p = l := by
  cases l with
  | nil => rfl
  | cons a t =>
    rw [List.dropWhile]
    rw [h a rfl]

theorem stripChars_mem (s : List Char) (c : Char) (hc : c ∈ stripChars s) : c ∈ s := by
  simp only [stripChars, List.mem_reverse] at hc
  exact (List.dropWhile_sublist isSpaceChar).subset
    (List.mem_reverse.mp ((List.dropWhile_sublist isSpaceChar).subset hc))

theorem stripChars_chain (s : List Char) (h : List.Chain' SpacedApart s) :
    List.Chain' SpacedApart (stripChars s) := by
  have h1 : List.Chain' SpacedApart (s.dropWhile isSpaceChar) :=
    h.infix (List.dropWhile_suffix isSpaceChar).isInfix
  have h2 : List.Chain' SpacedApart (s.dropWhile isSpaceChar).reverse := by
    rw [List.chain'_reverse]
    exact h1.imp (fun a b hab hc => hab ⟨hc.2, hc.1⟩)
  have h3 := h2.infix (List.dropWhile_suffix isSpaceChar).isInfix
  rw [stripChars, List.chain'_reverse]
  exact h3.imp (fun a b hab hc => hab ⟨hc.2, hc.1⟩)

theorem stripChars_head (s : List Char) (x : Char)
    (hx : (stripChars s).head? = some x) : isSpaceChar x = false := by
  rw [stripChars, List.head?_reverse] at hx
  obtain ⟨pre, hpre⟩ :=
    List.dropWhile_suffix (l := (s.dropWhile isSpaceChar).reverse) isSpaceChar
  have h2 : (s.dropWhile isSpaceChar).reverse.getLast? = some x := by
    rw [← hpre, List.getLast?_append, hx]
    rfl
  rw [List.getLast?_reverse] at h2
  exact head?_dropWhile_false isSpaceChar s x h2

theorem stripChars_getLast (s : List Char) (x : Char)
    (hx : (stripChars s).getLast? = some x) : isSpaceChar x = false := by
  rw [stripChars, List.getLast?_reverse] at hx
  exact head?_dropWhile_false isSpaceChar _ x hx

theorem stripChars_eq_self (s : List Char)
    (hh : ∀ x, s.head? = some x → isSpaceChar x = false)
    (hl : ∀ x, s.getLast? = some x → isSpaceChar x = false) : stripChars s = s := by
  rw [stripChars, dropWhile_eq_self_of_head _ _ hh]
  rw [dropWhile_eq_self_of_head]
  · exact List.reverse_reverse s
  · intro x hx
    rw [List.head?_reverse] at hx
    exact hl x hx

theorem depunct_eq_self (s : List Char)
    (h : ∀ c ∈ s, isWordChar c = true ∨ c = ' ') : depunct s = s := by
  rw [depunct, List.map_congr_left, List.map_id]
  intro a ha
  rcases h a ha with h' | rfl
  · simp [h']
  · rfl

theorem isWordChar_eq_false_of_isSpaceChar (c : Char) (h : isSpaceChar c = true) :
    isWordChar c = false := by
  simp only [isSpaceChar, Bool.or_eq_true, decide_eq_true_eq, or_assoc] at h
  rcases h with rfl | rfl | rfl | rfl | rfl | rfl <;> decide

theorem collapseAux_eq_self (s : List Char) (b : Bool)
    (hall : ∀ c ∈ s, isWordChar c = true ∨ c = ' ')
    (hch : List.Chain' SpacedApart s)
    (hb : b = true → ∀ x, s.head? = some x → isSpaceChar x = false) :
    collapseAux b s = s := by
  induction s generalizing b with
  | nil => rfl
  | cons a t ih =>
    rw [collapseAux]
    by_cases ha : isSpaceChar a = true
    · rw [if_pos ha]
      have hb' : b = false := by
        cases b with
        | false => rfl
        | true => exact absurd (hb rfl a rfl) (by simp [ha])
      subst hb'
      have ha' : a = ' ' := by
        rcases hall a (List.mem_cons_self ..) with h | rfl
        · exact absurd h (by simp [isWordChar_eq_false_of_isSpaceChar a ha])
        · rfl
      rw [if_neg (by simp)]
      subst ha'
      congr 1
      refine ih true ?_ (List.chain'_cons'.mp hch).2 ?_
      · exact fun c hc => hall c (List.mem_cons_of_mem _ hc)
      · intro _ x hx
        by_contra hsp
        rw [Bool.not_eq_false] at hsp
        exact absurd ⟨ha, hsp⟩ ((List.chain'_cons'.mp hch).1 x (Option.mem_def.mpr hx))
    · rw [if_neg ha]
      congr 1
      refine ih false ?_ (List.chain'_cons'.mp hch).2 (by simp)
      exact fun c hc => hall c (List.mem_cons_of_mem _ hc)

/-! ## The canonical form satisfies the invariants -/

theorem normalizeCore_mem_word_or_space (s : List Char) (c : Char)
    (hc : c ∈ normalizeCore s) : isWordChar c = true ∨ c = ' ' := by
  rw [normalizeCore] at hc
  have h1 := stripChars_mem _ c hc
  rcases collapseAux_mem false _ c h1 with h | ⟨h2, h3⟩
  · exact Or.inr h
  · rcases isWordChar_of_isSpaceChar_false_of_depunct_mem _ c h2 with h | h
    · exact Or.inl h
    · rw [h] at h3
      exact absurd h3 (by simp)

theorem normalizeCore_chain (s : List Char) :
    List.Chain' SpacedApart (normalizeCore s) :=
  stripChars_chain _ (collapseAux_chain false _)

theorem normalizeCore_head (s : List Char) (x : Char)
    (hx : (normalizeCore s).head? = some x) : isSpaceChar x = false :=
  stripChars_head _ x hx

theorem normalizeCore_getLast (s : List Char) (x : Char)
    (hx : (normalizeCore s).getLast? = some x) : isSpaceChar x = false :=
  stripChars_getLast _ x hx

theorem normalizeCore_not_upper (s : List Char) (c : Char)
    (hc : c ∈ normalizeCore s) : isUpperChar c = false := by
  rw [normalizeCore] at hc
  have h1 := stripChars_mem _ c hc
  rcases collapseAux_mem false _ c h1 with rfl | ⟨h2, _⟩
  · decide
  · simp only [depunct, List.mem_map] at h2
    obtain ⟨a, ha, hae⟩ := h2
    have haU : isUpperChar a = false := by
      have h3 : a ∈ s.map lowerChar := by
        have hsub : (applyVersionPatterns (runSub tryBrackets (s.map lowerChar))).Sublist
            (s.map lowerChar) := by
          refine ((((((((runSub_sublist _ tryP8_splitting _).trans
            (runSub_sublist _ tryP7_splitting _)).trans
            (runSub_sublist _ tryP6_splitting _)).trans
            (runSub_sublist _ tryP5_splitting _)).trans
            (runSub_sublist _ tryP4_splitting _)).trans
            (runSub_sublist _ tryP3_splitting _)).trans
            (runSub_sublist _ tryP2_splitting _)).trans
            (runSub_sublist _ tryP1_splitting _)).trans
            (runSub_sublist _ tryBrackets_splitting _)
        exact hsub.subset ha
      simp only [List.mem_map] at h3
      obtain ⟨b, _, rfl⟩ := h3
      exact isUpperChar_lowerChar b
    subst hae
    split
    · assumption
    · decide

theorem not_mem_of_word_or_space (s : List Char)
    (hall : ∀ c ∈ s, isWordChar c = true ∨ c = ' ') :
    ∀ c ∈ s, c ≠ '[' ∧ c ≠ '(' := by
  intro c hc
  rcases hall c hc with h | rfl
  · constructor <;> rintro rfl <;> simp [isWordChar] at h
  · exact ⟨by decide, by decide⟩

theorem tryBrackets_none_of_no_opener (prev : Option Char) (s : List Char)
    (h : ∀ c ∈ s, c ≠ '[' ∧ c ≠ '(') : tryBrackets prev s = none := by
  rw [tryBrackets]
  cases hdw : s.dropWhile isSpaceChar with
  | nil => rfl
  | cons c rest =>
    have hc : c ∈ s := (List.dropWhile_sublist isSpaceChar).subset (hdw ▸ List.mem_cons_self ..)
    dsimp only
    rw [if_neg]
    rintro (rfl | rfl)
    · exact (h _ hc).1 rfl
    · exact (h _ hc).2 rfl

theorem noMatchScan_tryBrackets (prev : Option Char) (s : List Char)
    (h : ∀ c ∈ s, c ≠ '[' ∧ c ≠ '(') : noMatchScan tryBrackets prev s = true := by
  induction s generalizing prev with
  | nil => rfl
  | cons c rest ih =>
    rw [noMatchScan]
    rw [tryBrackets_none_of_no_opener prev _ h]
    simp only [Option.isNone_none, Bool.true_and]
    exact ih (some c) (fun x hx => h x (List.mem_cons_of_mem _ hx))

theorem map_lowerChar_eq_self (s : List Char) (h : ∀ c ∈ s, isUpperChar c = false) :
    s.map lowerChar = s := by
  rw [List.map_congr_left (fun a ha => lowerChar_eq_self a (h a ha))]
  exact List.map_id s

/-- Decidable side condition of the amended idempotence claim: none of the
eight version patterns matches anywhere in the canonical form. -/
def versionStable (y : List Char) : Bool :=
  noMatchScan tryP1 none y && noMatchScan tryP2 none y && noMatchScan tryP3 none y &&
  noMatchScan tryP4 none y && noMatchScan tryP5 none y && noMatchScan tryP6 none y &&
  noMatchScan tryP7 none y && noMatchScan tryP8 none y

theorem normalizeCore_idem (s : List Char)
    (hv : versionStable (normalizeCore s) = true) :
    normalizeCore (normalizeCore s) = normalizeCore s := by
  simp only [versionStable, Bool.and_eq_true] at hv
  obtain ⟨⟨⟨⟨⟨⟨⟨h1, h2⟩, h3⟩, h4⟩, h5⟩, h6⟩, h7⟩, h8⟩ := hv
  set y := normalizeCore s with hy
  have hall : ∀ c ∈ y, isWordChar c = true ∨ c = ' ' :=
    fun c hc => normalizeCore_mem_word_or_space s c hc
  have hup : ∀ c ∈ y, isUpperChar c = false := fun c hc => normalizeCore_not_upper s c hc
  have hlow : y.map lowerChar = y := map_lowerChar_eq_self y hup
  have hbr : runSub tryBrackets y = y :=
    runSub_eq_self _ y (noMatchScan_tryBrackets none y (not_mem_of_word_or_space y hall))
  have hver : applyVersionPatterns y = y := by
    rw [applyVersionPatterns, runSub_eq_self tryP1 y h1, runSub_eq_self tryP2 y h2,
      runSub_eq_self tryP3 y h3, runSub_eq_self tryP4 y h4, runSub_eq_self tryP5 y h5,
      runSub_eq_self tryP6 y h6, runSub_eq_self tryP7 y h7, runSub_eq_self tryP8 y h8]
  have hdep : depunct y = y := depunct_eq_self y hall
  have hcol : collapseWs y = y :=
    collapseAux_eq_self y false hall (normalizeCore_chain s) (by simp)
  have hstr : stripChars y = y :=
    stripChars_eq_self y (normalizeCore_head s) (normalizeCore_getLast s)
  rw [normalizeCore, hlow, hbr, hver, hdep]
  rw [show collapseWs y = y from hcol, hstr]

/-! ## Claim C7: idempotence of title canonicalization -/

/-- Claim C7 as stated is false on the code: canonicalizing the title
"2009.master" yields "2009 master" (the dot becomes a space only after the
version patterns have run), and canonicalizing a second time erases it
entirely because the pattern `\d{4} master` now matches. -/
theorem C7_counterexample :
    normalize_title_for_dedupe "2009.master" = "2009 master" ∧
    normalize_title_for_dedupe (normalize_title_for_dedupe "2009.master") = "" ∧
    normalize_title_for_dedupe (normalize_title_for_dedupe "2009.master") ≠
      normalize_title_for_dedupe "2009.master" := by
  refine ⟨by decide, by decide, by decide⟩

/-- Claim C7, amended: `normalize_title_for_dedupe` is idempotent on every
string whose canonical form is not matched by any of the eight
version-marker patterns (the only way punctuation removal and whitespace
collapsing can create a fresh match). -/
theorem C7_canon_idempotent_amended (s : String)
    (hv : versionStable (normalize_title_for_dedupe s).data = true) :
    normalize_title_for_dedupe (normalize_title_for_dedupe s) =
      normalize_title_for_dedupe s := by
  by_cases hs : s = ""
  · subst hs
    rfl
  · rw [normalize_title_for_dedupe, if_neg hs] at hv
    rw [show ∀ l : List Char, (String.mk l).data = l from fun _ => rfl] at hv
    have hidem := normalizeCore_idem s.data hv
    have hy : normalize_title_for_dedupe s = String.mk (normalizeCore s.data) := by
      rw [normalize_title_for_dedupe, if_neg hs]
    rw [hy, normalize_title_for_dedupe]
    split
    · rename_i hz
      exact hz.symm
    · exact congrArg String.mk hidem

/-- Witness: the amended idempotence theorem applies to the concrete title
"Song (Remastered 2009)", whose canonical form is "song". -/
theorem C7_canon_idempotent_amended_witness :
    versionStable (normalize_title_for_dedupe "Song (Remastered 2009)").data = true ∧
    normalize_title_for_dedupe (normalize_title_for_dedupe "Song (Remastered 2009)") =
      normalize_title_for_dedupe "Song (Remastered 2009)" :=
  ⟨by decide, C7_canon_idempotent_amended "Song (Remastered 2009)" (by decide)⟩

/-! ## The track data model

A catalog row as the engine reads it.  Missing Python dict fields are
already collapsed to the falsy defaults the code substitutes (`or ""`,
`or 0`); `Genero` keeps the three dynamic shapes the code distinguishes
with `isinstance` checks.  Engagement metrics and scores are rationals so
that every list-processing function stays decidable; the real-valued
scoring formulas are analyzed separately over `ℝ`. -/

inductive GenVal where
  | gnone
  | gstr (s : String)
  | glist (l : List String)
  deriving DecidableEq, Repr

structure Track where
  Titulo : String
  Artista : String
  Album : String
  Ruta : String
  Bitrate : ℚ
  Genero : GenVal
  PopularityScore : ℚ
  RelativePopularityScore : ℚ
  LastFMPlaycount : ℚ
  LastFMListeners : ℚ
  YouTubeViews : ℚ
  deriving DecidableEq, Repr

/-! ## Deduplication (services.py lines 103-148) -/

/-- The grouping key of `deduplicate_tracks_by_title_keep_best`
(services.py lines 111-115): the canonical title, or the first 200
characters of the file reference when the title canonicalizes to empty. -/
def dedupKey (t : Track) : String :=
  let key := normalize_title_for_dedupe t.Titulo
  if key = "" then String.mk (t.Ruta.data.take 200) else key

/-- Replacement test of services.py line 135: the challenger wins on higher
bitrate, ties broken by higher raw popularity score. -/
def betterTrack (u t : Track) : Prop :=
  u.Bitrate > t.Bitrate ∨ (u.Bitrate = t.Bitrate ∧ u.PopularityScore > t.PopularityScore)

instance (u t : Track) : Decidable (betterTrack u t) := by
  unfold betterTrack; infer_instance

/-- Insertion into the `best` dict: a Python dict keeps the insertion
position of an existing key on overwrite and appends new keys. -/
def dedupInsert (best : List (String × Track)) (key : String) (t : Track) :
    List (String × Track) :=
  match best with
  | [] => [(key, t)]
  | (k, u) :: rest =>
    if k = key then
      if betterTrack t u then (k, t) :: rest else (k, u) :: rest
    else (k, u) :: dedupInsert rest key t

def dedupFold : List Track → List (String × Track) → List (String × Track)
  | [], best => best
  | t :: ts, best => dedupFold ts (dedupInsert best (dedupKey t) t)

/-- Model of `deduplicate_tracks_by_title_keep_best` (services.py
lines 103-148): fold the input into the `best` dict and return its values
in insertion order. -/
def deduplicate_tracks_by_title_keep_best (l : List Track) : List Track :=
  (dedupFold l []).map Prod.snd

/-- Non-strict version of the replacement order. -/
def lexLeTrack (u t : Track) : Prop := ¬betterTrack u t

theorem lexLeTrack_refl (t : Track) : lexLeTrack t t := by
  simp [lexLeTrack, betterTrack]

theorem lexLeTrack_trans (a b c : Track) (h1 : lexLeTrack a b) (h2 : lexLeTrack b c) :
    lexLeTrack a c := by
  simp only [lexLeTrack, betterTrack, not_or, not_and, not_lt] at *
  constructor
  · exact h1.1.trans h2.1
  · intro hac
    have hab : a.Bitrate ≤ b.Bitrate := h1.1
    have hbc : b.Bitrate ≤ c.Bitrate := h2.1
    have hbe : a.Bitrate = b.Bitrate := le_antisymm hab (hac.symm ▸ hbc)
    have hce : b.Bitrate = c.Bitrate := by rw [← hbe, hac]
    exact (h1.2 hbe).trans (h2.2 hce)

theorem dedupInsert_keyed (best : List (String × Track)) (key : String) (t : Track)
    (hk : dedupKey t = key) (h : ∀ p ∈ best, dedupKey p.2 = p.1) :
    ∀ p ∈ dedupInsert best key t, dedupKey p.2 = p.1 := by
  induction best with
  | nil =>
    intro p hp
    simp only [dedupInsert, List.mem_singleton] at hp
    subst hp
    exact hk
  | cons q rest ih =>
    obtain ⟨k, u⟩ := q
    intro p hp
    rw [dedupInsert] at hp
    split at hp
    · rename_i hkk
      split at hp <;> rcases List.mem_cons.mp hp with rfl | hp'
      · exact hkk ▸ hk
      · exact h _ (List.mem_cons_of_mem _ hp')
      · exact h _ (List.mem_cons_self ..)
      · exact h _ (List.mem_cons_of_mem _ hp')
    · rcases List.mem_cons.mp hp with rfl | hp'
      · exact h _ (List.mem_cons_self ..)
      · exact ih (fun q hq => h q (List.mem_cons_of_mem _ hq)) p hp'

theorem dedupInsert_keys (best : List (String × Track)) (key : String) (t : Track) :
    (dedupInsert best key t).map Prod.fst = best.map Prod.fst ∨
    (dedupInsert best key t).map Prod.fst = best.map Prod.fst ++ [key] := by
  induction best with
  | nil => right; rfl
  | cons q rest ih =>
    obtain ⟨k, u⟩ := q
    rw [dedupInsert]
    split
    · rename_i hkk
      split <;> left <;> simp
    · rcases ih with h | h <;> [left; right] <;> simp [h]

theorem dedupInsert_nodup (best : List (String × Track)) (key : String) (t : Track)
    (h : (best.map Prod.fst).Nodup) : ((dedupInsert best key t).map Prod.fst).Nodup := by
  induction best with
  | nil => simp [dedupInsert]
  | cons q rest ih =>
    obtain ⟨k, u⟩ := q
    simp only [List.map_cons, List.nodup_cons] at h
    rw [dedupInsert]
    split
    · rename_i hkk
      split <;> simp only [List.map_cons, List.nodup_cons] <;> exact ⟨hkk ▸ h.1, h.2⟩
    · rename_i hkk
      simp only [List.map_cons, List.nodup_cons]
      refine ⟨?_, ih h.2⟩
      rcases dedupInsert_keys rest key t with he | he <;> rw [he]
      · exact h.1
      · simp only [List.mem_append, List.mem_singleton]
        rintro (hmem | rfl)
        · exact h.1 hmem
        · exact hkk rfl

theorem betterTrack_asymm (u t : Track) (h : betterTrack u t) : ¬betterTrack t u := by
  simp only [betterTrack, not_or, not_and, not_lt] at *
  rcases h with h | ⟨he, hp⟩
  · exact ⟨le_of_lt h, fun heq => absurd (heq ▸ h) (lt_irrefl _)⟩
  · exact ⟨le_of_eq he.symm, fun _ => le_of_lt hp⟩

theorem dedupInsert_persist (best : List (String × Track)) (key : String) (t : Track)
    (k : String) (v : Track) (hv : (k, v) ∈ best) :
    ∃ w, (k, w) ∈ dedupInsert best key t ∧ lexLeTrack v w := by
  induction best with
  | nil => simp at hv
  | cons q rest ih =>
    obtain ⟨k0, u⟩ := q
    rw [dedupInsert]
    rcases List.mem_cons.mp hv with he | hv'
    · obtain ⟨rfl, rfl⟩ := Prod.mk.injEq .. ▸ he
      split
      · split
        · rename_i hb
          exact ⟨t, List.mem_cons_self .., betterTrack_asymm t v hb⟩
        · exact ⟨v, List.mem_cons_self .., lexLeTrack_refl v⟩
      · exact ⟨v, List.mem_cons_self .., lexLeTrack_refl v⟩
    · split
      · split
        · exact ⟨v, List.mem_cons_of_mem _ hv', lexLeTrack_refl v⟩
        · exact ⟨v, List.mem_cons_of_mem _ hv', lexLeTrack_refl v⟩
      · obtain ⟨w, hw1, hw2⟩ := ih hv'
        exact ⟨w, List.mem_cons_of_mem _ hw1, hw2⟩

theorem dedupInsert_covers (best : List (String × Track)) (key : String) (t : Track) :
    ∃ e, (key, e) ∈ dedupInsert best key t ∧ lexLeTrack t e := by
  induction best with
  | nil => exact ⟨t, List.mem_singleton.mpr rfl, lexLeTrack_refl t⟩
  | cons q rest ih =>
    obtain ⟨k, u⟩ := q
    rw [dedupInsert]
    split
    · rename_i hkk
      subst hkk
      by_cases hb : betterTrack t u
      · rw [if_pos hb]
        exact ⟨t, List.mem_cons_self .., lexLeTrack_refl t⟩
      · rw [if_neg hb]
        exact ⟨u, List.mem_cons_self .., hb⟩
    · obtain ⟨e, he1, he2⟩ := ih
      exact ⟨e, List.mem_cons_of_mem _ he1, he2⟩

theorem dedupFold_keyed : ∀ (l : List Track) (best : List (String × Track)),
    (∀ p ∈ best, dedupKey p.2 = p.1) → ∀ p ∈ dedupFold l best, dedupKey p.2 = p.1 := by
  intro l
  induction l with
  | nil => intro best h p hp; exact h p hp
  | cons t ts ih =>
    intro best h p hp
    exact ih _ (dedupInsert_keyed best (dedupKey t) t rfl h) p hp

theorem dedupFold_nodup : ∀ (l : List Track) (best : List (String × Track)),
    (best.map Prod.fst).Nodup → ((dedupFold l best).map Prod.fst).Nodup := by
  intro l
  induction l with
  | nil => intro best h; exact h
  | cons t ts ih => intro best h; exact ih _ (dedupInsert_nodup best (dedupKey t) t h)

theorem dedupFold_persist : ∀ (l : List Track) (best : List (String × Track)) (k : String)
    (v : Track), (k, v) ∈ best → ∃ w, (k, w) ∈ dedupFold l best ∧ lexLeTrack v w := by
  intro l
  induction l with
  | nil => intro best k v hv; exact ⟨v, hv, lexLeTrack_refl v⟩
  | cons t ts ih =>
    intro best k v hv
    obtain ⟨w1, hw1, hle1⟩ := dedupInsert_persist best (dedupKey t) t k v hv
    obtain ⟨w2, hw2, hle2⟩ := ih _ k w1 hw1
    exact ⟨w2, hw2, lexLeTrack_trans v w1 w2 hle1 hle2⟩

theorem nodup_keys_unique (m : List (String × Track)) (hm : (m.map Prod.fst).Nodup)
    (k : String) (a b : Track) (ha : (k, a) ∈ m) (hb : (k, b) ∈ m) : a = b := by
  induction m with
  | nil => simp at ha
  | cons q rest ih =>
    obtain ⟨k0, u⟩ := q
    simp only [List.map_cons, List.nodup_cons] at hm
    rcases List.mem_cons.mp ha with he | ha' <;> rcases List.mem_cons.mp hb with he2 | hb'
    · obtain ⟨rfl, rfl⟩ := Prod.mk.injEq .. ▸ he
      obtain ⟨-, rfl⟩ := Prod.mk.injEq .. ▸ he2
      rfl
    · obtain ⟨rfl, rfl⟩ := Prod.mk.injEq .. ▸ he
      exact absurd (List.mem_map.mpr ⟨(k, b), hb', rfl⟩) hm.1
    · obtain ⟨rfl, rfl⟩ := Prod.mk.injEq .. ▸ he2
      exact absurd (List.mem_map.mpr ⟨(k, a), ha', rfl⟩) hm.1
    · exact ih hm.2 ha' hb'

theorem dedupFold_max : ∀ (l : List Track) (best : List (String × Track)),
    (best.map Prod.fst).Nodup →
    ∀ p ∈ dedupFold l best, ∀ u ∈ l, dedupKey u = p.1 → lexLeTrack u p.2 := by
  intro l
  induction l with
  | nil => intro best _ p _ u hu; simp at hu
  | cons t ts ih =>
    intro best hnd p hp u hu hk
    rcases List.mem_cons.mp hu with rfl | hu'
    · obtain ⟨e, he1, hle1⟩ := dedupInsert_covers best (dedupKey u) u
      obtain ⟨w, hw1, hle2⟩ := dedupFold_persist ts _ (dedupKey u) e he1
      have hnd' := dedupFold_nodup ts _ (dedupInsert_nodup best (dedupKey u) u hnd)
      have hpw : p.2 = w := by
        have hp2 : (p.1, p.2) ∈ dedupFold ts (dedupInsert best (dedupKey u) u) := hp
        exact nodup_keys_unique _ hnd' p.1 p.2 w hp2 (hk ▸ hw1)
      rw [hpw]
      exact lexLeTrack_trans u e w hle1 hle2
    · exact ih _ (dedupInsert_nodup best (dedupKey t) t hnd) p hp u hu' hk

theorem dedupFold_covers : ∀ (l : List Track) (best : List (String × Track)) (u : Track),
    u ∈ l → ∃ w, (dedupKey u, w) ∈ dedupFold l best := by
  intro l
  induction l with
  | nil => intro best u hu; simp at hu
  | cons t ts ih =>
    intro best u hu
    rcases List.mem_cons.mp hu with rfl | hu'
    · obtain ⟨e, he1, -⟩ := dedupInsert_covers best (dedupKey u) u
      obtain ⟨w, hw1, -⟩ := dedupFold_persist ts _ (dedupKey u) e he1
      exact ⟨w, hw1⟩
    · exact ih _ u hu'

/-- Fixture track "Song (Remastered 2009)" at 320 kbps. -/
def songRemastered : Track :=
  { Titulo := "Song (Remastered 2009)", Artista := "The Band", Album := "Album",
    Ruta := "/music/song_remastered.flac", Bitrate := 320, Genero := GenVal.gstr "rock",
    PopularityScore := 0, RelativePopularityScore := 0,
    LastFMPlaycount := 0, LastFMListeners := 0, YouTubeViews := 0 }

/-- Fixture track "Song" by the same artist at 1411 kbps. -/
def songPlain : Track :=
  { Titulo := "Song", Artista := "The Band", Album := "Album",
    Ruta := "/music/song.flac", Bitrate := 1411, Genero := GenVal.gstr "rock",
    PopularityScore := 0, RelativePopularityScore := 0,
    LastFMPlaycount := 0, LastFMListeners := 0, YouTubeViews := 0 }

/-- Claim C6: deduplication keeps exactly one track per canonical key — no
two output tracks share a key, every input key is represented, and the kept
track is maximal in the (bitrate, then raw popularity) order among the
input tracks of its group; concretely, of the fixtures
"Song (Remastered 2009)" and "Song" the higher-bitrate one is kept. -/
theorem C6_dedup_keeps_best (l : List Track) :
    ((deduplicate_tracks_by_title_keep_best l).map dedupKey).Nodup ∧
    (∀ u ∈ l, ∃ t ∈ deduplicate_tracks_by_title_keep_best l, dedupKey t = dedupKey u) ∧
    (∀ t ∈ deduplicate_tracks_by_title_keep_best l, ∀ u ∈ l,
      dedupKey u = dedupKey t → ¬betterTrack u t) ∧
    deduplicate_tracks_by_title_keep_best [songRemastered, songPlain] = [songPlain] := by
  have hkeyed := dedupFold_keyed l [] (by simp)
  have hmapeq : (deduplicate_tracks_by_title_keep_best l).map dedupKey =
      (dedupFold l []).map Prod.fst := by
    rw [deduplicate_tracks_by_title_keep_best, List.map_map]
    exact List.map_congr_left (fun p hp => hkeyed p hp)
  refine ⟨?_, ?_, ?_, by decide⟩
  · rw [hmapeq]
    exact dedupFold_nodup l [] (by simp)
  · intro u hu
    obtain ⟨w, hw⟩ := dedupFold_covers l [] u hu
    refine ⟨w, List.mem_map.mpr ⟨(dedupKey u, w), hw, rfl⟩, ?_⟩
    exact hkeyed _ hw
  · intro t ht u hu hk
    rw [deduplicate_tracks_by_title_keep_best] at ht
    obtain ⟨p, hp, rfl⟩ := List.mem_map.mp ht
    exact dedupFold_max l [] (by simp) p hp u hu (hk.trans (hkeyed p hp))

/-- Witness: the deduplication theorem applied to the two-fixture list,
with all hypotheses discharged on concrete data. -/
theorem C6_dedup_keeps_best_witness :
    (∃ t ∈ deduplicate_tracks_by_title_keep_best [songRemastered, songPlain],
      dedupKey t = dedupKey songRemastered) ∧
    ¬betterTrack songRemastered songPlain := by
  have h := C6_dedup_keeps_best [songRemastered, songPlain]
  refine ⟨h.2.1 songRemastered (List.mem_cons_self ..), ?_⟩
  refine h.2.2.1 songPlain ?_ songRemastered (List.mem_cons_self ..) (by decide)
  rw [h.2.2.2]
  exact List.mem_cons_self ..

/-! ## Diversity limiter (services.py lines 252-292)

`limit_tracks_by_artist_album` sorts candidates best-first by relative
popularity and admits them greedily while a per-artist counter and a
per-(artist, album) counter stay under their caps. -/

/-- Python `(x or "").strip().lower()` for the artist / album key strings. -/
def stripLower (s : String) : String := String.mk ((stripChars s.data).map lowerChar)

def artistKey (t : Track) : String := stripLower t.Artista

def albumStr (t : Track) : String := stripLower t.Album

/-- Album counter key (services.py line 267): `f"{artist}::{album}"` when the
album is non-empty, otherwise just the artist. -/
def albumKey (t : Track) : String :=
  if albumStr t = "" then artistKey t else artistKey t ++ "::" ++ albumStr t

/-- Python `dict.get(key, 0)` over an association-list counter. -/
def lookupD : List (String × Nat) → String → Nat
  | [], _ => 0
  | (k0, n) :: rest, k => if k0 = k then n else lookupD rest k

/-- Increment a counter key (insert-or-replace, dict semantics). -/
def bumpCount : List (String × Nat) → String → List (String × Nat)
  | [], k => [(k, 1)]
  | (k0, n) :: rest, k =>
    if k0 = k then (k0, n + 1) :: rest else (k0, n) :: bumpCount rest k

/-- Greedy admission loop of services.py lines 263-283 over the sorted
candidates. -/
def limitGo (maxA maxAl : Nat) (aCnt alCnt : List (String × Nat)) : List Track → List Track
  | [] => []
  | t :: ts =>
    if lookupD aCnt (artistKey t) ≥ maxA then limitGo maxA maxAl aCnt alCnt ts
    else if lookupD alCnt (albumKey t) ≥ maxAl then limitGo maxA maxAl aCnt alCnt ts
    else t :: limitGo maxA maxAl (bumpCount aCnt (artistKey t)) (bumpCount alCnt (albumKey t)) ts

/-- Stable insertion of a track into a descending-sorted list: an earlier
track precedes later tracks of equal score. -/
def insertByScore (t : Track) : List Track → List Track
  | [] => [t]
  | u :: us =>
    if u.RelativePopularityScore ≤ t.RelativePopularityScore then t :: u :: us
    else u :: insertByScore t us

/-- Best-first order: stable descending sort by `RelativePopularityScore`
(services.py line 263; Python `sorted`/`list.sort` with `reverse=True` is
stable, so any stable descending sort computes the same list). -/
def sortByScoreDesc : List Track → List Track
  | [] => []
  | t :: ts => insertByScore t (sortByScoreDesc ts)

/-- Model of `limit_tracks_by_artist_album` (services.py lines 252-292). -/
def limit_tracks_by_artist_album (l : List Track) (maxA maxAl : Nat) : List Track :=
  limitGo maxA maxAl [] [] (sortByScoreDesc l)

theorem lookupD_bumpCount_self (m : List (String × Nat)) (k : String) :
    lookupD (bumpCount m k) k = lookupD m k + 1 := by
  induction m with
  | nil => simp [bumpCount, lookupD]
  | cons q rest ih =>
    obtain ⟨k0, n⟩ := q
    by_cases hk : k0 = k
    · subst hk
      simp [bumpCount, lookupD]
    · rw [bumpCount, if_neg hk, lookupD, if_neg hk, lookupD, if_neg hk]
      exact ih

theorem lookupD_bumpCount_ne (m : List (String × Nat)) (k k' : String) (h : k ≠ k') :
    lookupD (bumpCount m k) k' = lookupD m k' := by
  induction m with
  | nil => simp [bumpCount, lookupD, h]
  | cons q rest ih =>
    obtain ⟨k0, n⟩ := q
    by_cases hk : k0 = k
    · subst hk
      rw [bumpCount, if_pos rfl, lookupD, if_neg h, lookupD, if_neg h]
    · rw [bumpCount, if_neg hk]
      by_cases h0 : k0 = k'
      · subst h0
        rw [lookupD, if_pos rfl, lookupD, if_pos rfl]
      · rw [lookupD, if_neg h0, lookupD, if_neg h0]
        exact ih

theorem limitGo_artist_cap (maxA maxAl : Nat) :
    ∀ (ts : List Track) (aCnt alCnt : List (String × Nat)) (k : String),
    (limitGo maxA maxAl aCnt alCnt ts).countP (fun t => decide (artistKey t = k)) +
      lookupD aCnt k ≤ max maxA (lookupD aCnt k) := by
  intro ts
  induction ts with
  | nil => intro aCnt alCnt k; simp [limitGo]
  | cons t ts ih =>
    intro aCnt alCnt k
    rw [limitGo]
    split
    · exact ih aCnt alCnt k
    · split
      · exact ih aCnt alCnt k
      · rename_i hA hAl
        rw [List.countP_cons]
        by_cases hk : artistKey t = k
        · subst hk
          have hrec := ih (bumpCount aCnt (artistKey t)) (bumpCount alCnt (albumKey t))
            (artistKey t)
          rw [lookupD_bumpCount_self] at hrec
          have hlt : lookupD aCnt (artistKey t) < maxA := Nat.lt_of_not_le hA
          rw [Nat.max_eq_left hlt] at hrec
          rw [Nat.max_eq_left (Nat.le_of_lt hlt)]
          have hpa : (decide (artistKey t = artistKey t)) = true := by simp
          rw [hpa, if_pos rfl]
          omega
        · have hpa : (decide (artistKey t = k)) = false := by simp [hk]
          rw [hpa]
          simp only [Bool.false_eq_true, if_false, Nat.add_zero]
          have hrec := ih (bumpCount aCnt (artistKey t)) (bumpCount alCnt (albumKey t)) k
          rw [lookupD_bumpCount_ne aCnt (artistKey t) k hk] at hrec
          exact hrec

theorem limitGo_album_cap (maxA maxAl : Nat) :
    ∀ (ts : List Track) (aCnt alCnt : List (String × Nat)) (k : String),
    (limitGo maxA maxAl aCnt alCnt ts).countP (fun t => decide (albumKey t = k)) +
      lookupD alCnt k ≤ max maxAl (lookupD alCnt k) := by
  intro ts
  induction ts with
  | nil => intro aCnt alCnt k; simp [limitGo]
  | cons t ts ih =>
    intro aCnt alCnt k
    rw [limitGo]
    split
    · exact ih aCnt alCnt k
    · split
      · exact ih aCnt alCnt k
      · rename_i hA hAl
        rw [List.countP_cons]
        by_cases hk : albumKey t = k
        · subst hk
          have hrec := ih (bumpCount aCnt (artistKey t)) (bumpCount alCnt (albumKey t))
            (albumKey t)
          rw [lookupD_bumpCount_self] at hrec
          have hlt : lookupD alCnt (albumKey t) < maxAl := Nat.lt_of_not_le hAl
          rw [Nat.max_eq_left hlt] at hrec
          rw [Nat.max_eq_left (Nat.le_of_lt hlt)]
          have hpa : (decide (albumKey t = albumKey t)) = true := by simp
          rw [hpa, if_pos rfl]
          omega
        · have hpa : (decide (albumKey t = k)) = false := by simp [hk]
          rw [hpa]
          simp only [Bool.false_eq_true, if_false, Nat.add_zero]
          have hrec := ih (bumpCount aCnt (artistKey t)) (bumpCount alCnt (albumKey t)) k
          rw [lookupD_bumpCount_ne alCnt (albumKey t) k hk] at hrec
          exact hrec

theorem limitGo_sublist (maxA maxAl : Nat) :
    ∀ (ts : List Track) (aCnt alCnt : List (String × Nat)),
    (limitGo maxA maxAl aCnt alCnt ts).Sublist ts := by
  intro ts
  induction ts with
  | nil => intro aCnt alCnt; exact List.Sublist.refl []
  | cons t ts ih =>
    intro aCnt alCnt
    rw [limitGo]
    split
    · exact (ih aCnt alCnt).cons t
    · split
      · exact (ih aCnt alCnt).cons t
      · exact (ih _ _).cons₂ t

/-- Claim C4: in every output of the diversity limiter at its default caps,
at most 3 tracks share a normalized artist key and at most 2 tracks share a
normalized (artist, album) pair; the output is a sublist of the candidates
sorted best-first by relative popularity, so a rejected candidate is
dropped and never admitted later. -/
theorem C4_diversity_limiter (l : List Track) :
    (∀ k, (limit_tracks_by_artist_album l 3 2).countP
      (fun t => decide (artistKey t = k)) ≤ 3) ∧
    (∀ a b, (limit_tracks_by_artist_album l 3 2).countP
      (fun t => decide (artistKey t = a ∧ albumStr t = b)) ≤ 2) ∧
    (limit_tracks_by_artist_album l 3 2).Sublist (sortByScoreDesc l) := by
  refine ⟨?_, ?_, limitGo_sublist 3 2 (sortByScoreDesc l) [] []⟩
  · intro k
    have h := limitGo_artist_cap 3 2 (sortByScoreDesc l) [] [] k
    simpa [lookupD] using h
  · intro a b
    have hmono : (limit_tracks_by_artist_album l 3 2).countP
        (fun t => decide (artistKey t = a ∧ albumStr t = b)) ≤
        (limit_tracks_by_artist_album l 3 2).countP
        (fun t => decide (albumKey t = (if b = "" then a else a ++ "::" ++ b))) := by
      refine List.countP_mono_left ?_
      intro t _ hp
      simp only [decide_eq_true_eq] at hp ⊢
      rw [albumKey, hp.1, hp.2]
    have h := limitGo_album_cap 3 2 (sortByScoreDesc l) [] []
      (if b = "" then a else a ++ "::" ++ b)
    simp only [lookupD, Nat.add_zero, Nat.max_self, le_refl, Nat.max_eq_left,
      Nat.le_add_left] at h
    exact hmono.trans (by simpa [lookupD] using h)

/-! ## JSON values and Mongo query dictionaries

`JVal` models the dynamic dict/list/str/int shapes the Python code
distinguishes with `isinstance`; `MQuery` models the Mongo filter
dictionaries the engine builds (field name to condition value). -/

inductive JVal where
  | jnull
  | jbool (b : Bool)
  | jnum (n : Int)
  | jfloat (q : ℚ)
  | jstr (s : String)
  | jarr (l : List JVal)
  | jobj (l : List (String × JVal))
  deriving Repr

inductive MVal where
  | mstr (s : String)
  | regexCI (pattern : String)
  | yearRange (gte lt : Int)
  | yearGteLte (gte lte : Int)
  | acoustic (gte lte : Option ℚ)
  | inStrs (l : List String)
  | orQ (l : List (List (String × MVal)))
  | andQ (l : List (List (String × MVal)))
  | mdict (l : List (String × JVal))
  deriving Repr

abbrev MQuery := List (String × MVal)

/-- First-match lookup in a JSON object association list. -/
def jLookup : List (String × JVal) → String → Option JVal
  | [], _ => none
  | (k, v) :: rest, key => if k = key then some v else jLookup rest key

/-- Python dict assignment: replace the value in place if the key exists,
otherwise append. -/
def setKey : MQuery → String → MVal → MQuery
  | [], k, v => [(k, v)]
  | (k0, v0) :: rest, k, v =>
    if k0 = k then (k0, v) :: rest else (k0, v0) :: setKey rest k v

/-- Python truthiness of a JSON value. -/
def jTruthy : JVal → Bool
  | JVal.jnull => false
  | JVal.jbool b => b
  | JVal.jnum n => n ≠ 0
  | JVal.jfloat q => q ≠ 0
  | JVal.jstr s => s ≠ ""
  | JVal.jarr l => !l.isEmpty
  | JVal.jobj l => !l.isEmpty

/-- Characters Python `re.escape` prefixes with a backslash. -/
def reSpecialChars : List Char :=
  ['(', ')', '[', ']', '\x7b', '\x7d', '?', '*', '+', '-', '|', '^', '$', '\\',
   '.', '&', '~', '#', ' ', '\t', '\n', '\r', '\x0b', '\x0c']

def reEscape (s : String) : String :=
  String.mk (s.data.flatMap (fun c => if c ∈ reSpecialChars then ['\\', c] else [c]))

/-! ## Filter normalization

Two implementations exist in the repository: `parse_filters_from_llm` in
services.py lines 150-232 (used by the modular hybrid cycle) and the older
one in playlist_api_refinedV15enchanced.py.  Only the latter handles the
`country`/`country_type` keys. -/

/-- First run of at least two consecutive digits, truncated to four: the
group of `re.search(r"(\d{2,4})s?", s)` (services.py line 179). -/
def firstDigitRun : List Char → Option (List Char)
  | [] => none
  | c :: rest =>
    if isDigitChar c then
      let run := c :: rest.takeWhile isDigitChar
      if run.length ≥ 2 then some (run.take 4) else firstDigitRun rest
    else firstDigitRun rest

def digitVal (c : Char) : Nat := c.toNat - 48

def digitsToInt (l : List Char) : Int :=
  Int.ofNat (l.foldl (fun acc c => acc * 10 + digitVal c) 0)

/-- Decade string parsing of services.py lines 176-188: extract the digit
group, map a two-digit decade into the 1900s, and produce a ten-year
range. -/
def decadeRangeOf : JVal → Option (Int × Int)
  | JVal.jstr ds =>
    match firstDigitRun ds.data with
    | some g =>
      let n := digitsToInt g
      let start := if g.length = 2 then 1900 + n else n
      some (start, start + 10)
    | none => none
  | _ => none

def genreKeys : List String := ["genero", "género", "genre", "Genero", "género_principal"]

/-- Genre branch of services.py lines 208-221: the first configured key
whose value is a non-blank string (turned into a case-insensitive regex) or
an already-Mongo-shaped dict containing `$regex` (passed through). -/
def genreFilterOf (llm_filters : List (String × JVal)) : List String → Option MVal
  | [] => none
  | key :: rest =>
    match jLookup llm_filters key with
    | some (JVal.jstr v) =>
      if stripChars v.data ≠ [] then some (MVal.regexCI v)
      else genreFilterOf llm_filters rest
    | some (JVal.jobj d) =>
      if (jLookup d "$regex").isSome then some (MVal.mdict d)
      else genreFilterOf llm_filters rest
    | _ => genreFilterOf llm_filters rest

/-- Python `str(year).isdigit()` gate of services.py line 226 for an int or
string year value. -/
def yearDigits : JVal → Option Int
  | JVal.jnum n => if 0 ≤ n then some n else none
  | JVal.jstr s => if s.data ≠ [] ∧ s.data.all isDigitChar then some (digitsToInt s.data) else none
  | _ => none

/-- Model of `parse_filters_from_llm` (services.py lines 150-232): the
decade filter (single range, `$or` of ranges, plus the `Decada` field),
the genre filter and the specific-year filter.  Country keys are not
handled by this implementation. -/
def parse_filters_from_llm (llm_filters : List (String × JVal)) : MQuery :=
  if llm_filters.isEmpty then []
  else
    let decadesToProcess : List JVal :=
      match jLookup llm_filters "Decada" with
      | some (JVal.jarr l) => l
      | some (JVal.jstr s) => [JVal.jstr s]
      | _ => []
    let yearRanges := decadesToProcess.filterMap decadeRangeOf
    let out0 : MQuery :=
      match yearRanges with
      | [] => []
      | [p] => [("Año", MVal.yearRange p.1 p.2),
                ("Decada", MVal.mstr (toString p.1 ++ "s"))]
      | ps => [("$or", MVal.orQ (ps.map (fun p => [("Año", MVal.yearRange p.1 p.2)]))),
               ("Decada", MVal.inStrs (ps.map (fun p => toString p.1 ++ "s")))]
    let out1 : MQuery :=
      match genreFilterOf llm_filters genreKeys with
      | some g => setKey out0 "Genero" g
      | none => out0
    match jLookup llm_filters "year" with
    | some yv =>
      match yearDigits yv with
      | some y => setKey out1 "Año" (MVal.yearRange y (y + 1))
      | none => out1
    | none => out1

/-- Country-handling block of the monolithic `parse_filters_from_llm`
(playlist_api_refinedV15enchanced.py lines 226-243); the rest of that
parser never reads or writes the `country`/`country_type` keys.  Kind
`origin` filters on the artist's area of origin; kind `popular_in` builds
an `$or` across the three ranked popular-in country fields. -/
def mono_country_filters (llm_filters : List (String × JVal)) : MQuery :=
  match jLookup llm_filters "country" with
  | some (JVal.jstr c) =>
    if c ≠ "" then
      let ctype := (jLookup llm_filters "country_type").getD (JVal.jstr "origin")
      match ctype with
      | JVal.jstr t =>
        if t = "origin" then
          [("ArtistArea", MVal.regexCI ("^" ++ reEscape c ++ "$"))]
        else if t = "popular_in" then
          [("$or", MVal.orQ
            [[("TopCountry1", MVal.regexCI ("^" ++ reEscape c ++ "$"))],
             [("TopCountry2", MVal.regexCI ("^" ++ reEscape c ++ "$"))],
             [("TopCountry3", MVal.regexCI ("^" ++ reEscape c ++ "$"))]])]
        else []
      | _ => []
    else []
  | _ => []

/-- Claim C9 concerns the services pipeline, where the country intent is
forced into the filter dict (services.py lines 546-549) but the services
`parse_filters_from_llm` then drops it: the active filter map contains no
country predicate at all.  The monolithic parser produces the two distinct
kind-specific shapes the claim describes. -/
theorem C9_country_predicates :
    parse_filters_from_llm
      [("country", JVal.jstr "Chile"), ("country_type", JVal.jstr "origin")] = [] ∧
    mono_country_filters
      [("country", JVal.jstr "Chile"), ("country_type", JVal.jstr "origin")] =
      [("ArtistArea", MVal.regexCI "^Chile$")] ∧
    mono_country_filters
      [("country", JVal.jstr "Chile"), ("country_type", JVal.jstr "popular_in")] =
      [("$or", MVal.orQ
        [[("TopCountry1", MVal.regexCI "^Chile$")],
         [("TopCountry2", MVal.regexCI "^Chile$")],
         [("TopCountry3", MVal.regexCI "^Chile$")]])] ∧
    mono_country_filters
      [("country", JVal.jstr "Chile"), ("country_type", JVal.jstr "origin")] ≠
    mono_country_filters
      [("country", JVal.jstr "Chile"), ("country_type", JVal.jstr "popular_in")] := by
  refine ⟨rfl, rfl, rfl, ?_⟩
  intro h
  have hk := congrArg (List.map Prod.fst) h
  rw [show mono_country_filters
      [("country", JVal.jstr "Chile"), ("country_type", JVal.jstr "origin")] =
      [("ArtistArea", MVal.regexCI "^Chile$")] from rfl] at hk
  rw [show mono_country_filters
      [("country", JVal.jstr "Chile"), ("country_type", JVal.jstr "popular_in")] =
      [("$or", MVal.orQ
        [[("TopCountry1", MVal.regexCI "^Chile$")],
         [("TopCountry2", MVal.regexCI "^Chile$")],
         [("TopCountry3", MVal.regexCI "^Chile$")]])] from rfl] at hk
  exact absurd hk (by decide)

/-! ## Tiered catalog search (services.py lines 348-477)

The Mongo collection is an external collaborator: it is modeled as an
oracle from a find request (query, optional sort, limit) to a row list.
All claim properties hold for every oracle. -/

structure FindReq where
  query : MQuery
  sortBy : Option (String × Int)
  lim : Nat

abbrev FindOracle := FindReq → List Track

/-- Read a string field of an LLM suggestion dict, defaulting to "", then
`strip()` it (services.py lines 365-367). -/
def sGetStrip (s : JVal) (key : String) : String :=
  match s with
  | JVal.jobj l =>
    match jLookup l key with
    | some (JVal.jstr v) => String.mk (stripChars v.data)
    | _ => ""
  | _ => ""

/-- Accumulated search state: results so far and seen file references. -/
abbrev SearchSt := List Track × List String

/-- Inner result-collection loop shared by all four tiers (services.py
lines 400-406, 416-422, 436-442, 466-472): append a row while its file
reference is non-empty and unseen, stopping at the limit. -/
def addTracks (lim : Nat) : List Track → SearchSt → SearchSt
  | [], st => st
  | f :: fs, (results, seen) =>
    if results.length ≥ lim then (results, seen)
    else if f.Ruta ≠ "" ∧ f.Ruta ∉ seen then
      addTracks lim fs (results ++ [f], f.Ruta :: seen)
    else addTracks lim fs (results, seen)

/-- Tier-1 step for one suggestion (services.py lines 365-406): flexible
match on title/artist/album combined with the normalized filters, up to 5
rows. -/
def tier1Step (find : FindOracle) (normalized : MQuery) (lim : Nat) (s : JVal)
    (st : SearchSt) : SearchSt :=
  let titulo := sGetStrip s "titulo"
  let artista := sGetStrip s "artista"
  let album := sGetStrip s "album"
  let orClauses : List MQuery :=
    (if titulo ≠ "" then [[("Titulo", MVal.regexCI (reEscape titulo))]] else []) ++
    (if artista ≠ "" then [[("Artista", MVal.regexCI (reEscape artista))]] else []) ++
    (if album ≠ "" then [[("Album", MVal.regexCI (reEscape album))]] else [])
  let andClauses : List MQuery :=
    (if orClauses.isEmpty then [] else [[("$or", MVal.orQ orClauses)]]) ++
    (if normalized.isEmpty then [] else [normalized])
  match andClauses with
  | [] => st
  | [q] => addTracks lim (find ⟨q, none, 5⟩) st
  | qs => addTracks lim (find ⟨[("$and", MVal.andQ qs)], none, 5⟩) st

/-- Tier 1 (services.py lines 360-406): run the step for each suggestion
while short of the limit. -/
def tier1 (find : FindOracle) (normalized : MQuery) (lim : Nat) :
    List JVal → SearchSt → SearchSt
  | [], st => st
  | s :: rest, st =>
    if st.1.length ≥ lim then st
    else tier1 find normalized lim rest (tier1Step find normalized lim s st)

/-- Tier 2 (services.py lines 409-427): direct query by the normalized
filters, sorted by descending popularity, fetching twice the limit. -/
def tier2 (find : FindOracle) (normalized : MQuery) (lim : Nat) (st : SearchSt) : SearchSt :=
  if st.1.length < lim ∧ ¬normalized.isEmpty then
    addTracks lim (find ⟨normalized, some ("PopularityScore", -1), lim * 2⟩) st
  else st

/-- Tier 3 (services.py lines 430-447): decade-only query when a `Decada`
filter is active. -/
def tier3 (find : FindOracle) (normalized : MQuery) (lim : Nat) (st : SearchSt) : SearchSt :=
  match normalized.find? (fun p => p.1 = "Decada") with
  | some p =>
    if st.1.length < lim then
      addTracks lim (find ⟨[("Decada", p.2)], some ("PopularityScore", -1), lim⟩) st
    else st
  | none => st

/-- Maximal word-character runs of a string: the non-empty pieces of
`re.split(r"\W+", s)`. -/
def wordRunsStep (c : Char) (st : List Char × List (List Char)) :
    List Char × List (List Char) :=
  if isWordChar c then (c :: st.1, st.2)
  else ([], if st.1.isEmpty then st.2 else st.1 :: st.2)

def wordRuns (s : List Char) : List (List Char) :=
  let st := s.foldr wordRunsStep ([], [])
  if st.1.isEmpty then st.2 else st.1 :: st.2

/-- Query keywords: tokens of more than 3 characters (services.py line 453). -/
def promptWords (s : String) : List String :=
  ((wordRuns s.data).filter (fun w => w.length > 3)).map String.mk

/-- Tier 4 (services.py lines 450-474): keyword fallback over
genre/title/artist when there are no suggestions and no filters. -/
def tier4 (find : FindOracle) (sugerencia : List JVal) (normalized : MQuery) (lim : Nat)
    (user_prompt : Option String) (st : SearchSt) : SearchSt :=
  match user_prompt with
  | none => st
  | some prompt =>
    if st.1.length < lim ∧ sugerencia.isEmpty ∧ normalized.isEmpty then
      match promptWords prompt with
      | [] => st
      | ws =>
        let kwQuery : MQuery :=
          [("$or", MVal.orQ
            (ws.map (fun w => [("Genero", MVal.regexCI w)]) ++
             ws.map (fun w => [("Titulo", MVal.regexCI w)]) ++
             ws.map (fun w => [("Artista", MVal.regexCI w)])))]
        addTracks lim (find ⟨kwQuery, none, lim⟩) st
    else st

/-- Model of `search_tracks_in_mongo` (services.py lines 348-477). -/
def search_tracks_in_mongo (sugerencia : List JVal) (llm_filters : List (String × JVal))
    (lim : Nat) (find : FindOracle) (user_prompt : Option String) : List Track :=
  (tier4 find sugerencia (parse_filters_from_llm llm_filters) lim user_prompt
    (tier3 find (parse_filters_from_llm llm_filters) lim
      (tier2 find (parse_filters_from_llm llm_filters) lim
        (tier1 find (parse_filters_from_llm llm_filters) lim sugerencia ([], []))))).1

/-- Search-state invariant: bounded length, non-empty pairwise-distinct
file references, every reference recorded as seen. -/
def SearchInv (lim : Nat) (st : SearchSt) : Prop :=
  st.1.length ≤ lim ∧ (∀ t ∈ st.1, t.Ruta ≠ "") ∧
  (st.1.map Track.Ruta).Nodup ∧ (∀ t ∈ st.1, t.Ruta ∈ st.2)

theorem addTracks_inv (lim : Nat) :
    ∀ (fs : List Track) (st : SearchSt), SearchInv lim st →
    SearchInv lim (addTracks lim fs st) := by
  intro fs
  induction fs with
  | nil => intro st h; exact h
  | cons f fs ih =>
    intro st h
    obtain ⟨results, seen⟩ := st
    rw [addTracks]
    split
    · exact h
    · rename_i hlen
      split
      · rename_i hf
        refine ih _ ⟨?_, ?_, ?_, ?_⟩
        · simpa using Nat.lt_of_not_le hlen
        · intro t ht
          rcases List.mem_append.mp ht with h' | h'
          · exact h.2.1 t h'
          · rw [List.mem_singleton.mp h']
            exact hf.1
        · rw [List.map_append]
          rw [List.nodup_append]
          refine ⟨h.2.2.1, by simp, ?_⟩
          intro r hr
          simp only [List.map_cons, List.map_nil, List.mem_singleton]
          rintro rfl
          obtain ⟨t, ht, hte⟩ := List.mem_map.mp hr
          exact hf.2 (hte ▸ h.2.2.2 t ht)
        · intro t ht
          rcases List.mem_append.mp ht with h' | h'
          · exact List.mem_cons_of_mem _ (h.2.2.2 t h')
          · rw [List.mem_singleton.mp h']
            exact List.mem_cons_self ..
      · exact ih _ h

theorem addTracks_full (lim : Nat) (fs : List Track) (st : SearchSt)
    (h : st.1.length ≥ lim) : addTracks lim fs st = st := by
  cases fs with
  | nil => rfl
  | cons f fs =>
    obtain ⟨results, seen⟩ := st
    rw [addTracks, if_pos h]

theorem tier1Step_cases (find : FindOracle) (normalized : MQuery) (lim : Nat) (s : JVal)
    (st : SearchSt) : tier1Step find normalized lim s st = st ∨
    ∃ fs, tier1Step find normalized lim s st = addTracks lim fs st := by
  rw [tier1Step]
  split
  · exact Or.inl rfl
  · exact Or.inr ⟨_, rfl⟩
  · exact Or.inr ⟨_, rfl⟩

theorem tier1Step_inv (find : FindOracle) (normalized : MQuery) (lim : Nat) (s : JVal)
    (st : SearchSt) (h : SearchInv lim st) :
    SearchInv lim (tier1Step find normalized lim s st) := by
  rcases tier1Step_cases find normalized lim s st with he | ⟨fs, he⟩ <;> rw [he]
  · exact h
  · exact addTracks_inv lim fs st h

theorem tier1_inv (find : FindOracle) (normalized : MQuery) (lim : Nat) :
    ∀ (sug : List JVal) (st : SearchSt), SearchInv lim st →
    SearchInv lim (tier1 find normalized lim sug st) := by
  intro sug
  induction sug with
  | nil => intro st h; exact h
  | cons s rest ih =>
    intro st h
    rw [tier1]
    split
    · exact h
    · exact ih _ (tier1Step_inv find normalized lim s st h)

theorem tier2_inv (find : FindOracle) (normalized : MQuery) (lim : Nat) (st : SearchSt)
    (h : SearchInv lim st) : SearchInv lim (tier2 find normalized lim st) := by
  rw [tier2]
  split
  · exact addTracks_inv lim _ _ h
  · exact h

theorem tier3_inv (find : FindOracle) (normalized : MQuery) (lim : Nat) (st : SearchSt)
    (h : SearchInv lim st) : SearchInv lim (tier3 find normalized lim st) := by
  rw [tier3]
  split
  · split
    · exact addTracks_inv lim _ _ h
    · exact h
  · exact h

theorem tier4_inv (find : FindOracle) (sug : List JVal) (normalized : MQuery) (lim : Nat)
    (p : Option String) (st : SearchSt) (h : SearchInv lim st) :
    SearchInv lim (tier4 find sug normalized lim p st) := by
  rw [tier4.eq_def]
  split
  · exact h
  · split
    · split
      · exact h
      · exact addTracks_inv lim _ _ h
    · exact h

/-- Claim C10: for every oracle and input, the tiered search returns at most
`lim` tracks, never includes a row with a missing/empty file reference, the
returned file references are pairwise distinct, and the shared collection
loop adds nothing once the running count has reached the limit. -/
theorem C10_tiered_search (sugerencia : List JVal) (llm_filters : List (String × JVal))
    (lim : Nat) (find : FindOracle) (user_prompt : Option String) :
    (search_tracks_in_mongo sugerencia llm_filters lim find user_prompt).length ≤ lim ∧
    (∀ t ∈ search_tracks_in_mongo sugerencia llm_filters lim find user_prompt,
      t.Ruta ≠ "") ∧
    ((search_tracks_in_mongo sugerencia llm_filters lim find user_prompt).map
      Track.Ruta).Nodup ∧
    (∀ (fs : List Track) (st : SearchSt), st.1.length ≥ lim →
      addTracks lim fs st = st) := by
  have hinv : SearchInv lim (([], []) : SearchSt) := by
    refine ⟨by simp, by simp, by simp, by simp⟩
  have h := tier4_inv find sugerencia (parse_filters_from_llm llm_filters) lim user_prompt
    (tier3 find (parse_filters_from_llm llm_filters) lim
      (tier2 find (parse_filters_from_llm llm_filters) lim
        (tier1 find (parse_filters_from_llm llm_filters) lim sugerencia ([], []))))
    (tier3_inv find (parse_filters_from_llm llm_filters) lim _
      (tier2_inv find (parse_filters_from_llm llm_filters) lim _
        (tier1_inv find (parse_filters_from_llm llm_filters) lim sugerencia _ hinv)))
  exact ⟨h.1, h.2.1, h.2.2.1, fun fs st hst => addTracks_full lim fs st hst⟩

/-- Witness: the search theorem at a concrete empty input, with the
`addTracks` stopping property discharged on a concrete full state. -/
theorem C10_tiered_search_witness :
    (search_tracks_in_mongo [] [] 0 (fun _ => []) none).length ≤ 0 ∧
    addTracks 0 [songPlain] ([], []) = ([], []) := by
  refine ⟨(C10_tiered_search [] [] 0 (fun _ => []) none).1, ?_⟩
  exact (C10_tiered_search [] [] 0 (fun _ => []) none).2.2.2 [songPlain] ([], [])
    (by decide)

/-! ## Intent analysis (intent_analysis.py)

The LLM call plus JSON extraction (`run_local_llm` composed with
`extract_json_from_text`) is modeled as an oracle value of type
`Option JVal`; `none` stands for "no JSON block found". -/

def pyLower (s : String) : String := String.mk (s.data.map lowerChar)

/-- Substring containment used for every keyword check (`x in text`). -/
def isInfixList (sub : List Char) : List Char → Bool
  | [] => sub.isEmpty
  | c :: t => sub.isPrefixOf (c :: t) || isInfixList sub t

def containsSubstr (hay sub : String) : Bool := isInfixList sub.data hay.data

/-- COUNTRY_KEYWORDS of intent_analysis.py lines 14-25, in insertion
order. -/
def countryKeywords : List (String × String × String) :=
  [("chile", "Chile", "origin"), ("argent", "Argentina", "origin"),
   ("mexic", "México", "origin"), ("colomb", "Colombia", "origin"),
   ("espa", "España", "origin"), ("per", "Perú", "origin"),
   ("usa", "Estados Unidos", "origin"), ("estad", "Estados Unidos", "origin"),
   ("brasil", "Brasil", "origin"), ("franc", "Francia", "origin")]

def popularityKeywords : List String :=
  ["popular en", "más escuchado en", "top en", "tendencias en"]

/-- Model of `detect_country_intent` (intent_analysis.py lines 40-51). -/
def detect_country_intent (text : String) : Option (String × String) :=
  let lower := pyLower text
  match countryKeywords.find? (fun k => containsSubstr lower k.1) with
  | some k =>
    let ctype := if popularityKeywords.any (fun p => containsSubstr lower p)
      then "popular_in" else k.2.2
    some (k.2.1, ctype)
  | none => none

/-- Model of `detect_region_from_query` (intent_analysis.py lines 54-63). -/
def detect_region_from_query (text : String) : Option String :=
  let lower := pyLower text
  if ["latina", "latino", "latam", "iberoamerica"].any (fun w => containsSubstr lower w)
    then some "latam"
  else if ["europea", "europeo", "europa"].any (fun w => containsSubstr lower w)
    then some "europa"
  else if ["norteamericana", "usa", "estadounidense", "canadiense"].any
      (fun w => containsSubstr lower w)
    then some "norteamerica"
  else none

/-- First run of digits truncated to three: the group of
`(?:top\s*)?(\d{1,3})\s*(?:canciones|temas|tracks)?`. -/
def firstDigits1to3 : List Char → Option (List Char)
  | [] => none
  | c :: rest =>
    if isDigitChar c then some ((c :: rest.takeWhile isDigitChar).take 3)
    else firstDigits1to3 rest

/-- Model of `extract_limit_directly` (intent_analysis.py lines 66-75). -/
def extract_limit_directly (text : String) : Option Int :=
  match firstDigits1to3 (pyLower text).data with
  | some g => some (max 5 (min (digitsToInt g) 100))
  | none => none

/-- Python `int(value)` over a JSON value, `none` when it raises. -/
def toIntPy : Option JVal → Option Int
  | some (JVal.jnum n) => some n
  | some (JVal.jfloat q) => some (Int.tdiv q.num q.den)
  | some (JVal.jbool b) => some (if b then 1 else 0)
  | some (JVal.jstr s) =>
    let t := stripChars s.data
    match t with
    | '-' :: ds => if ds ≠ [] ∧ ds.all isDigitChar then some (-(digitsToInt ds)) else none
    | ds => if ds ≠ [] ∧ ds.all isDigitChar then some (digitsToInt ds) else none
  | _ => none

/-- Model of `validate_and_normalize_limit` (intent_analysis.py
lines 78-85). -/
def validate_and_normalize_limit (value : Option JVal) (text : String) : Int :=
  match toIntPy value with
  | some n => max 10 (min n 100)
  | none => (extract_limit_directly text).getD 30

/-- The parsed/augmented analysis dict, restricted to the fields the
engine reads downstream. -/
structure Intent where
  itype : Option JVal
  genre : Option JVal
  mood : Option JVal
  decade : Option JVal
  year : Option JVal
  artist : Option JVal
  country : Option JVal
  country_type : Option JVal
  region : Option String
  region_name : Option String
  intent : Option JVal
  detected_limit : Int
  deriving Repr

/-- Model of `enhance_region_detection` (intent_analysis.py lines
124-138): a detected region overrides the request type and clears the
country fields. -/
def enhance_region_detection (analysis : Intent) (query_text : String) : Intent :=
  match detect_region_from_query query_text with
  | some r =>
    let rname := if r = "latam" then "Latinoamérica"
      else if r = "europa" then "Europa" else "Norteamérica"
    { analysis with
        itype := some (JVal.jstr "region_request")
        region := some r
        region_name := some rname
        country := none
        country_type := none
        intent := some (JVal.jstr ("Música de " ++ rname)) }
  | none => analysis

/-- First match of `(19|20)\d{2}` in a character list. -/
def findYear : List Char → Option Int
  | [] => none
  | c :: rest =>
    match rest with
    | d :: e :: f :: _ =>
      if ((c = '1' ∧ d = '9') ∨ (c = '2' ∧ d = '0')) ∧ isDigitChar e ∧ isDigitChar f then
        some (digitsToInt [c, d, e, f])
      else findYear rest
    | _ => none

/-- Model of `get_improved_fallback_analysis` (intent_analysis.py lines
90-119): deterministic keyword classification used when the parsed LLM
output is unusable. -/
def get_improved_fallback_analysis (text : String) : Intent :=
  let lower := pyLower text
  let genre : Option JVal :=
    if containsSubstr lower "rock" then some (JVal.jstr "rock")
    else if containsSubstr lower "pop" then some (JVal.jstr "pop")
    else if containsSubstr lower "metal" then some (JVal.jstr "metal")
    else if containsSubstr lower "electr" then some (JVal.jstr "electrónica")
    else if containsSubstr lower "jazz" then some (JVal.jstr "jazz")
    else none
  let year := findYear lower.data
  let decade : Option JVal := year.map (fun y => JVal.jstr (toString (y / 10) ++ "0s"))
  let cinfo := detect_country_intent lower
  { itype := some (JVal.jstr "fallback"), genre := genre, mood := none,
    decade := decade, year := year.map JVal.jnum, artist := none,
    country := cinfo.map (fun p => JVal.jstr p.1),
    country_type := cinfo.map (fun p => JVal.jstr p.2),
    region := none, region_name := none,
    intent := some (JVal.jstr "fallback_analysis"),
    detected_limit := (extract_limit_directly text).getD 30 }

/-- Model of `analyze_query_intent` (intent_analysis.py lines 143-180).
`oracle` is the JSON value extracted from the LLM response; a falsy value
becomes the empty dict (`or {}`); mutating a non-dict value raises, which
the function catches by switching to the deterministic fallback. -/
def analyze_query_intent (oracle : Option JVal) (query_text : String) : Intent :=
  let country_info := detect_country_intent query_text
  let parsed : JVal := match oracle with
    | some v => if jTruthy v then v else JVal.jobj []
    | none => JVal.jobj []
  match parsed with
  | JVal.jobj fields =>
    let country := match country_info with
      | some p => some (JVal.jstr p.1)
      | none => jLookup fields "country"
    let country_type := match country_info with
      | some p => some (JVal.jstr p.2)
      | none => jLookup fields "country_type"
    enhance_region_detection
      { itype := jLookup fields "type", genre := jLookup fields "genre",
        mood := jLookup fields "mood", decade := jLookup fields "decade",
        year := jLookup fields "year", artist := jLookup fields "artist",
        country := country, country_type := country_type,
        region := none, region_name := none, intent := jLookup fields "intent",
        detected_limit := validate_and_normalize_limit (jLookup fields "limit") query_text }
      query_text
  | _ => get_improved_fallback_analysis query_text

/-- Python dict assignment on a JSON object association list. -/
def setKeyJ : List (String × JVal) → String → JVal → List (String × JVal)
  | [], k, v => [(k, v)]
  | (k0, v0) :: rest, k, v =>
    if k0 = k then (k0, v) :: rest else (k0, v0) :: setKeyJ rest k v

/-- Country-forcing step of `hybrid_playlist_cycle_enhanced` (services.py
lines 546-549): when the analysis carries a country, it overwrites the
model-returned `country`/`country_type` keys of the filter dict. -/
def forceCountryFilters (analysis : Intent) (llm_filters : List (String × JVal)) :
    List (String × JVal) :=
  match analysis.country with
  | some cv =>
    if jTruthy cv then
      setKeyJ (setKeyJ llm_filters "country" cv) "country_type"
        (analysis.country_type.getD (JVal.jstr "origin"))
    else llm_filters
  | none => llm_filters

theorem jLookup_setKeyJ_self (m : List (String × JVal)) (k : String) (v : JVal) :
    jLookup (setKeyJ m k v) k = some v := by
  induction m with
  | nil => simp [setKeyJ, jLookup]
  | cons q rest ih =>
    obtain ⟨k0, v0⟩ := q
    by_cases hk : k0 = k
    · rw [setKeyJ, if_pos hk, jLookup, if_pos hk]
    · rw [setKeyJ, if_neg hk, jLookup, if_neg hk]
      exact ih

theorem jLookup_setKeyJ_ne (m : List (String × JVal)) (k k' : String) (v : JVal)
    (h : k ≠ k') : jLookup (setKeyJ m k v) k' = jLookup m k' := by
  induction m with
  | nil => simp [setKeyJ, jLookup, h]
  | cons q rest ih =>
    obtain ⟨k0, v0⟩ := q
    by_cases hk : k0 = k
    · subst hk
      rw [setKeyJ, if_pos rfl, jLookup, if_neg h, jLookup, if_neg h]
    · rw [setKeyJ, if_neg hk]
      by_cases h0 : k0 = k'
      · rw [jLookup, if_pos h0, jLookup, if_pos h0]
      · rw [jLookup, if_neg h0, jLookup, if_neg h0]
        exact ih

theorem detect_country_nonblank (q c ty : String)
    (h : detect_country_intent q = some (c, ty)) : c ≠ "" := by
  rw [detect_country_intent] at h
  cases hf : countryKeywords.find? (fun k => containsSubstr (pyLower q) k.1) with
  | none => rw [hf] at h; simp at h
  | some k =>
    rw [hf] at h
    simp only [Option.some.injEq, Prod.mk.injEq] at h
    have hm := List.mem_of_find?_eq_some hf
    have hne : k.2.1 ≠ "" := by
      simp only [countryKeywords, List.mem_cons, List.not_mem_nil, or_false] at hm
      rcases hm with rfl | rfl | rfl | rfl | rfl | rfl | rfl | rfl | rfl | rfl <;> decide
    exact h.1 ▸ hne

/-- Claim C5 as stated fails: in the query "rock de usa" the deterministic
detector finds the country "Estados Unidos", yet the produced intent's
country differs between two runs that differ only in the LLM response — a
dict response goes through region enhancement (which clears the country),
while a non-dict JSON response raises inside the `try` and lands in the
deterministic fallback, which skips region enhancement. -/
theorem C5_counterexample :
    detect_country_intent "rock de usa" = some ("Estados Unidos", "origin") ∧
    (analyze_query_intent (some (JVal.jobj [])) "rock de usa").country = none ∧
    (analyze_query_intent (some (JVal.jarr [JVal.jnum 1])) "rock de usa").country =
      some (JVal.jstr "Estados Unidos") ∧
    (analyze_query_intent (some (JVal.jobj [])) "rock de usa").country ≠
      (analyze_query_intent (some (JVal.jarr [JVal.jnum 1])) "rock de usa").country := by
  refine ⟨rfl, rfl, rfl, ?_⟩
  intro h
  rw [show (analyze_query_intent (some (JVal.jobj [])) "rock de usa").country = none
    from rfl] at h
  rw [show (analyze_query_intent (some (JVal.jarr [JVal.jnum 1])) "rock de usa").country =
    some (JVal.jstr "Estados Unidos") from rfl] at h
  exact Option.noConfusion h

theorem pyLower_idem (q : String) : pyLower (pyLower q) = pyLower q := by
  rw [pyLower, pyLower]
  simp only [String.data]
  rw [List.map_map]
  refine congrArg String.mk (List.map_congr_left ?_)
  intro a _
  exact lowerChar_eq_self (lowerChar a) (isUpperChar_lowerChar a)

theorem detect_country_intent_pyLower (q : String) :
    detect_country_intent (pyLower q) = detect_country_intent q := by
  rw [detect_country_intent, detect_country_intent, pyLower_idem]

theorem fallback_country_fields (q : String) (c ty : String)
    (hc : detect_country_intent q = some (c, ty)) :
    (get_improved_fallback_analysis q).country = some (JVal.jstr c) ∧
    (get_improved_fallback_analysis q).country_type = some (JVal.jstr ty) := by
  rw [get_improved_fallback_analysis]
  simp only [detect_country_intent_pyLower, hc, Option.map_some]
  exact ⟨rfl, rfl⟩

/-- Claim C5, amended: whenever deterministic detection finds a country and
no broader region keyword is detected in the query, the intent's country
and country type equal the detected values for every LLM outcome, two runs
differing only in the LLM response agree on those fields, and the forcing
step installs the detected country into the phase-1 filter dict over any
model-returned value. -/
theorem C5_country_precedence_amended (o : Option JVal) (q : String) (c ty : String)
    (hc : detect_country_intent q = some (c, ty))
    (hr : detect_region_from_query q = none) :
    (analyze_query_intent o q).country = some (JVal.jstr c) ∧
    (analyze_query_intent o q).country_type = some (JVal.jstr ty) ∧
    (∀ o2, (analyze_query_intent o q).country = (analyze_query_intent o2 q).country ∧
      (analyze_query_intent o q).country_type = (analyze_query_intent o2 q).country_type) ∧
    (∀ llm_filters,
      jLookup (forceCountryFilters (analyze_query_intent o q) llm_filters) "country" =
        some (JVal.jstr c) ∧
      jLookup (forceCountryFilters (analyze_query_intent o q) llm_filters) "country_type" =
        some (JVal.jstr ty)) := by
  have hobj : ∀ fields : List (String × JVal),
      (enhance_region_detection
        { itype := jLookup fields "type", genre := jLookup fields "genre",
          mood := jLookup fields "mood", decade := jLookup fields "decade",
          year := jLookup fields "year", artist := jLookup fields "artist",
          country := some (JVal.jstr c), country_type := some (JVal.jstr ty),
          region := none, region_name := none, intent := jLookup fields "intent",
          detected_limit :=
            validate_and_normalize_limit (jLookup fields "limit") q } q).country =
        some (JVal.jstr c) ∧
      (enhance_region_detection
        { itype := jLookup fields "type", genre := jLookup fields "genre",
          mood := jLookup fields "mood", decade := jLookup fields "decade",
          year := jLookup fields "year", artist := jLookup fields "artist",
          country := some (JVal.jstr c), country_type := some (JVal.jstr ty),
          region := none, region_name := none, intent := jLookup fields "intent",
          detected_limit :=
            validate_and_normalize_limit (jLookup fields "limit") q } q).country_type =
        some (JVal.jstr ty) := by
    intro fields
    rw [enhance_region_detection, hr]
    exact ⟨rfl, rfl⟩
  have hbase : ∀ o', (analyze_query_intent o' q).country = some (JVal.jstr c) ∧
      (analyze_query_intent o' q).country_type = some (JVal.jstr ty) := by
    intro o'
    simp only [analyze_query_intent]
    cases o' with
    | none =>
      dsimp only
      simp only [hc]
      exact hobj []
    | some v =>
      dsimp only
      by_cases hv : jTruthy v = true
      · rw [if_pos hv]
        cases v with
        | jobj fields =>
          simp only [hc]
          exact hobj fields
        | jnull => exact fallback_country_fields q c ty hc
        | jbool b => exact fallback_country_fields q c ty hc
        | jnum n => exact fallback_country_fields q c ty hc
        | jfloat x => exact fallback_country_fields q c ty hc
        | jstr s => exact fallback_country_fields q c ty hc
        | jarr l => exact fallback_country_fields q c ty hc
      · rw [if_neg hv]
        simp only [hc]
        exact hobj []
  refine ⟨(hbase o).1, (hbase o).2, ?_, ?_⟩
  · intro o2
    exact ⟨(hbase o).1.trans (hbase o2).1.symm, (hbase o).2.trans (hbase o2).2.symm⟩
  · intro llm_filters
    rw [forceCountryFilters, (hbase o).1]
    dsimp only
    have htr : jTruthy (JVal.jstr c) = true := by
      simp only [jTruthy, ne_eq, decide_eq_true_eq]
      exact detect_country_nonblank q c ty hc
    rw [if_pos htr]
    constructor
    · rw [jLookup_setKeyJ_ne _ "country_type" "country" _ (by decide)]
      exact jLookup_setKeyJ_self llm_filters "country" (JVal.jstr c)
    · rw [(hbase o).2]
      exact jLookup_setKeyJ_self _ "country_type" (JVal.jstr ty)

/-- Witness: the amended precedence theorem at the query "rock de chile"
with a missing LLM response. -/
theorem C5_country_precedence_amended_witness :
    detect_country_intent "rock de chile" = some ("Chile", "origin") ∧
    detect_region_from_query "rock de chile" = none ∧
    (analyze_query_intent none "rock de chile").country = some (JVal.jstr "Chile") :=
  ⟨rfl, rfl, (C5_country_precedence_amended none "rock de chile" "Chile" "origin"
    rfl rfl).1⟩

/-! ## Acoustic/emotional filter enrichment (filter_utils.py lines 6-240) -/

/-- One emotional profile: the fields it adds when the emotion keyword
occurs in the prompt. -/
abbrev Profile := List (String × MVal)

def someQ (q : ℚ) : Option ℚ := some q

/-- The `emotional_acoustic_profiles` table of filter_utils.py lines
15-171, in insertion order. -/
def emotionalAcousticProfiles : List (String × Profile) :=
  [("alegre", [("TempoBPM", MVal.acoustic (someQ 110) (someQ 140)),
               ("EnergyRMS", MVal.acoustic (someQ (20/100)) none),
               ("EMO_Lyrics", MVal.mstr "Joy / Happy"),
               ("EMO_Sound", MVal.mstr "Energetic / Uplifting")]),
   ("feliz", [("TempoBPM", MVal.acoustic (someQ 100) (someQ 135)),
              ("EnergyRMS", MVal.acoustic (someQ (18/100)) none),
              ("EMO_Lyrics", MVal.mstr "Joy / Happy"),
              ("EMO_Sound", MVal.mstr "Energetic / Uplifting")]),
   ("contento", [("TempoBPM", MVal.acoustic (someQ 95) (someQ 130)),
                 ("EnergyRMS", MVal.acoustic (someQ (16/100)) none),
                 ("EMO_Lyrics", MVal.mstr "Joy / Happy"),
                 ("EMO_Sound", MVal.mstr "Groovy / Positive")]),
   ("bailable", [("TempoBPM", MVal.acoustic (someQ 115) (someQ 130)),
                 ("EnergyRMS", MVal.acoustic (someQ (22/100)) none),
                 ("EMO_Sound", MVal.mstr "Energetic / Uplifting"),
                 ("EMO_Context1", MVal.mstr "Celebración y vida social")]),
   ("fiesta", [("TempoBPM", MVal.acoustic (someQ 120) (someQ 140)),
               ("EnergyRMS", MVal.acoustic (someQ (25/100)) none),
               ("EMO_Sound", MVal.mstr "Energetic / Uplifting"),
               ("EMO_Context1", MVal.mstr "Celebración y vida social")]),
   ("baile", [("TempoBPM", MVal.acoustic (someQ 110) (someQ 135)),
              ("EnergyRMS", MVal.acoustic (someQ (20/100)) none),
              ("EMO_Context1", MVal.mstr "Celebración y vida social")]),
   ("energético", [("TempoBPM", MVal.acoustic (someQ 130) none),
                   ("EnergyRMS", MVal.acoustic (someQ (28/100)) none),
                   ("EMO_Sound", MVal.mstr "Energetic / Uplifting")]),
   ("intenso", [("TempoBPM", MVal.acoustic (someQ 140) none),
                ("EnergyRMS", MVal.acoustic (someQ (30/100)) none),
                ("EMO_Sound", MVal.mstr "Energetic / Uplifting")]),
   ("potente", [("TempoBPM", MVal.acoustic (someQ 125) none),
                ("EnergyRMS", MVal.acoustic (someQ (26/100)) none),
                ("EMO_Sound", MVal.mstr "Energetic / Uplifting")]),
   ("tranquilo", [("TempoBPM", MVal.acoustic none (someQ 100)),
                  ("EnergyRMS", MVal.acoustic none (someQ (15/100))),
                  ("EMO_Sound", MVal.mstr "Calm / Neutral")]),
   ("relajante", [("TempoBPM", MVal.acoustic none (someQ 90)),
                  ("EnergyRMS", MVal.acoustic none (someQ (12/100))),
                  ("EMO_Sound", MVal.mstr "Calm / Neutral")]),
   ("calma", [("TempoBPM", MVal.acoustic none (someQ 85)),
              ("EnergyRMS", MVal.acoustic none (someQ (10/100))),
              ("EMO_Sound", MVal.mstr "Calm / Neutral")]),
   ("suave", [("TempoBPM", MVal.acoustic none (someQ 95)),
              ("EnergyRMS", MVal.acoustic none (someQ (14/100))),
              ("EMO_Sound", MVal.mstr "Calm / Neutral")]),
   ("triste", [("TempoBPM", MVal.acoustic none (someQ 80)),
               ("EnergyRMS", MVal.acoustic none (someQ (12/100))),
               ("EMO_Lyrics", MVal.mstr "Sadness"),
               ("EMO_Sound", MVal.mstr "Sad / Melancholic")]),
   ("melancólico", [("TempoBPM", MVal.acoustic none (someQ 75)),
                    ("EnergyRMS", MVal.acoustic none (someQ (10/100))),
                    ("EMO_Lyrics", MVal.mstr "Sadness"),
                    ("EMO_Sound", MVal.mstr "Sad / Melancholic")]),
   ("nostalgia", [("TempoBPM", MVal.acoustic none (someQ 95)),
                  ("EnergyRMS", MVal.acoustic none (someQ (18/100))),
                  ("EMO_Lyrics", MVal.mstr "Sadness"),
                  ("EMO_Context1", MVal.mstr "Dolor y pérdida")]),
   ("romántico", [("TempoBPM", MVal.acoustic none (someQ 100)),
                  ("EnergyRMS", MVal.acoustic none (someQ (16/100))),
                  ("EMO_Lyrics", MVal.mstr "Love / Romantic"),
                  ("EMO_Context1", MVal.mstr "Amor y deseo")]),
   ("amor", [("TempoBPM", MVal.acoustic none (someQ 110)),
             ("EnergyRMS", MVal.acoustic none (someQ (20/100))),
             ("EMO_Lyrics", MVal.mstr "Love / Romantic"),
             ("EMO_Context1", MVal.mstr "Amor y deseo")]),
   ("pasión", [("TempoBPM", MVal.acoustic none (someQ 105)),
               ("EnergyRMS", MVal.acoustic none (someQ (22/100))),
               ("EMO_Lyrics", MVal.mstr "Love / Romantic"),
               ("EMO_Context1", MVal.mstr "Amor y deseo")]),
   ("enojo", [("TempoBPM", MVal.acoustic (someQ 120) none),
              ("EnergyRMS", MVal.acoustic (someQ (24/100)) none),
              ("EMO_Lyrics", MVal.mstr "Anger"),
              ("EMO_Context1", MVal.mstr "Conflicto y traición")]),
   ("ira", [("TempoBPM", MVal.acoustic (someQ 130) none),
            ("EnergyRMS", MVal.acoustic (someQ (28/100)) none),
            ("EMO_Lyrics", MVal.mstr "Anger"),
            ("EMO_Context1", MVal.mstr "Conflicto y traición")]),
   ("superación", [("TempoBPM", MVal.acoustic (someQ 100) (someQ 130)),
                   ("EnergyRMS", MVal.acoustic (someQ (18/100)) none),
                   ("EMO_Context1", MVal.mstr "Superación y resiliencia")]),
   ("motivación", [("TempoBPM", MVal.acoustic (someQ 105) (someQ 135)),
                   ("EnergyRMS", MVal.acoustic (someQ (20/100)) none),
                   ("EMO_Context1", MVal.mstr "Superación y resiliencia")]),
   ("espiritual", [("TempoBPM", MVal.acoustic none (someQ 95)),
                   ("EnergyRMS", MVal.acoustic none (someQ (16/100))),
                   ("EMO_Context1", MVal.mstr "Existencial / espiritual")]),
   ("existencial", [("TempoBPM", MVal.acoustic none (someQ 90)),
                    ("EnergyRMS", MVal.acoustic none (someQ (14/100))),
                    ("EMO_Context1", MVal.mstr "Existencial / espiritual")])]

/-- Add a filter field only when it is not already present (the profile
application of filter_utils.py lines 181-183). -/
def addIfAbsent (m : MQuery) (k : String) (v : MVal) : MQuery :=
  if (m.find? (fun p => p.1 = k)).isSome then m else m ++ [(k, v)]

def hasKeyM (m : MQuery) (k : String) : Bool := (m.find? (fun p => p.1 = k)).isSome

/-- Emotion-indicator list of `contains_emotion_indicator`
(filter_utils.py lines 251-280). -/
def emotionIndicators : List String :=
  ["alegre", "feliz", "contento", "alegría", "felicidad", "optimismo",
   "amor", "romántico", "romance", "pasión", "corazón", "enamorado",
   "triste", "tristeza", "melancolía", "melancólico", "dolor", "pena",
   "enojo", "ira", "enfado", "rabia", "furia",
   "miedo", "temor", "ansiedad", "pánico",
   "fiesta", "celebración", "baile", "juerga", "diversión",
   "superación", "motivación", "inspiración", "esperanza",
   "espiritual", "existencial", "fe", "religión", "destino"]

def contains_emotion_indicator (text : String) : Bool :=
  if text = "" then false
  else emotionIndicators.any (fun w => containsSubstr (pyLower text) w)

/-- Model of `enrich_filters_with_acoustics` (filter_utils.py lines
6-240): the first matching emotional profile, explicit tempo/energy terms,
and a coarse emotional fallback, each adding fields only when absent. -/
def enrich_filters_with_acoustics (text : String) (filters : MQuery) : MQuery :=
  let text_low := pyLower text
  let applied := emotionalAcousticProfiles.find? (fun p => containsSubstr text_low p.1)
  let f1 := match applied with
    | some p => p.2.foldl (fun acc kv => addIfAbsent acc kv.1 kv.2) filters
    | none => filters
  let tempoRanges : List (String × MVal) :=
    [("rápido", MVal.acoustic (someQ 130) none),
     ("lento", MVal.acoustic none (someQ 80)),
     ("medio", MVal.acoustic (someQ 90) (someQ 120))]
  let f2 := tempoRanges.foldl (fun acc kv =>
    if containsSubstr text_low kv.1 ∧ ¬hasKeyM acc "TempoBPM" then
      acc ++ [("TempoBPM", kv.2)]
    else acc) f1
  let f3 :=
    if containsSubstr text_low "alta energía" ∧ ¬hasKeyM f2 "EnergyRMS" then
      f2 ++ [("EnergyRMS", MVal.acoustic (someQ (25/100)) none)]
    else if containsSubstr text_low "baja energía" ∧ ¬hasKeyM f2 "EnergyRMS" then
      f2 ++ [("EnergyRMS", MVal.acoustic none (someQ (12/100)))]
    else f2
  if applied.isNone ∧ contains_emotion_indicator text then
    if ["alegre", "feliz", "fiesta", "baile", "celebración"].any
        (fun w => containsSubstr text_low w) then
      addIfAbsent (addIfAbsent (addIfAbsent f3
        "TempoBPM" (MVal.acoustic (someQ 100) (someQ 135)))
        "EnergyRMS" (MVal.acoustic (someQ (18/100)) none))
        "EMO_Sound" (MVal.inStrs ["Energetic / Uplifting", "Groovy / Positive"])
    else if ["triste", "melancolía", "nostalgia", "dolor"].any
        (fun w => containsSubstr text_low w) then
      addIfAbsent (addIfAbsent (addIfAbsent f3
        "TempoBPM" (MVal.acoustic none (someQ 95)))
        "EnergyRMS" (MVal.acoustic none (someQ (15/100))))
        "EMO_Sound" (MVal.inStrs ["Sad / Melancholic", "Calm / Neutral"])
    else if ["amor", "romántico", "pasión"].any
        (fun w => containsSubstr text_low w) then
      addIfAbsent (addIfAbsent (addIfAbsent f3
        "TempoBPM" (MVal.acoustic none (someQ 110)))
        "EnergyRMS" (MVal.acoustic none (someQ (20/100))))
        "EMO_Lyrics" (MVal.mstr "Love / Romantic")
    else f3
  else f3

/-! ## Normalized filters as JSON

The enhanced cycle passes the already-normalized filter dict back into
`search_tracks_in_mongo`, which re-parses it (services.py line 355), so the
Mongo-value representation must be convertible back to its JSON shape. -/

mutual

def mvalToJ : MVal → JVal
  | MVal.mstr s => JVal.jstr s
  | MVal.regexCI p => JVal.jobj [("$regex", JVal.jstr p), ("$options", JVal.jstr "i")]
  | MVal.yearRange g l => JVal.jobj [("$gte", JVal.jnum g), ("$lt", JVal.jnum l)]
  | MVal.yearGteLte g l => JVal.jobj [("$gte", JVal.jnum g), ("$lte", JVal.jnum l)]
  | MVal.acoustic g l =>
    JVal.jobj ((match g with | some q => [("$gte", JVal.jfloat q)] | none => []) ++
               (match l with | some q => [("$lte", JVal.jfloat q)] | none => []))
  | MVal.inStrs l => JVal.jobj [("$in", JVal.jarr (l.map JVal.jstr))]
  | MVal.orQ qs => JVal.jarr (mqListToJ qs)
  | MVal.andQ qs => JVal.jarr (mqListToJ qs)
  | MVal.mdict l => JVal.jobj l

def mqListToJ : List (List (String × MVal)) → List JVal
  | [] => []
  | q :: qs => JVal.jobj (mqueryToJ q) :: mqListToJ qs

def mqueryToJ : List (String × MVal) → List (String × JVal)
  | [] => []
  | (k, v) :: rest => (k, mvalToJ v) :: mqueryToJ rest

end

/-! ## Postprocessing pipeline (services.py lines 237-343)

The raw popularity computation runs over floats (`math.log1p`); the
pipeline keeps it abstract as a score assignment `popFn : Track → ℚ`, and
likewise keeps the perceptual curve `sqrt(rel) * 0.8 + 0.2` abstract as
`relAdjFn : ℚ → ℚ`.  The real-valued formulas themselves are modelled
separately (`compute_popularity` below) for the score-range claims. -/

/-- Python truthiness of an optional JSON field (`dict.get(k)` on an
analysis dict: a missing or falsy value reads as absent). -/
def optTruthy : Option JVal → Bool
  | some v => jTruthy v
  | none => false

/-- Genre bucket string of `compute_relative_popularity_by_genre`
(popularity_utils.py lines 81-87): a falsy genre reads "Desconocido", a
list is joined with " / " and stripped, a string is stripped with
"Desconocido" as the empty fallback. -/
def genreStrRel : GenVal → String
  | GenVal.gnone => "Desconocido"
  | GenVal.gstr s =>
    if s = "" then "Desconocido"
    else if String.mk (stripChars s.data) = "" then "Desconocido"
    else String.mk (stripChars s.data)
  | GenVal.glist xs =>
    if xs.isEmpty then "Desconocido"
    else String.mk (stripChars (String.intercalate " / " xs).data)

/-- Python `max(scores) if scores else 1` on the bucket scores
(popularity_utils.py line 101). -/
def pyMax : List ℚ → ℚ
  | [] => 1
  | x :: xs => xs.foldl max x

/-- `norm_safe` (popularity_utils.py lines 11-16) over exact rationals. -/
def normSafeQ (v M : ℚ) : ℚ := if M > 0 then v / M else 0

/-- Model of `compute_relative_popularity_by_genre` (popularity_utils.py
lines 72-108): group by the genre string, set each track's relative score
from its raw score against the bucket maximum; the dicts are mutated in
place, so the caller's list keeps its original order. -/
def compute_relative_popularity_by_genre (relAdjFn : ℚ → ℚ) (l : List Track) : List Track :=
  l.map (fun t =>
    let scores := (l.filter (fun u => genreStrRel u.Genero = genreStrRel t.Genero)).map
      Track.PopularityScore
    { t with
        RelativePopularityScore := relAdjFn (normSafeQ t.PopularityScore (pyMax scores)) })

/-- Lowercased genre string of `filter_gross_incongruities` (services.py
line 243): lists are joined with a single space, a falsy genre reads "". -/
def genreStrIncong : GenVal → String
  | GenVal.gnone => ""
  | GenVal.gstr s => pyLower s
  | GenVal.glist xs => pyLower (String.intercalate " " xs)

/-- `title.split(" ")[0]`. -/
def firstWord (s : String) : String := String.mk (s.data.takeWhile (fun c => c ≠ ' '))

/-- Model of `filter_gross_incongruities` (services.py lines 237-246): keep
a track when its genre string or the first word of its lowercased title
occurs in the lowercased prompt (the empty string occurs in everything). -/
def filter_gross_incongruities (tracks : List Track) (query_text : String) : List Track :=
  tracks.filter (fun t =>
    containsSubstr (pyLower query_text) (genreStrIncong t.Genero) ||
    containsSubstr (pyLower query_text) (firstWord (pyLower t.Titulo)))

/-- Model of `apply_intelligent_postprocessing` (services.py lines
294-343): raw scores, dedup, per-genre relative scores, incongruity filter,
artist/album caps (3/2), descending sort, final truncation.  The
`llm_analysis` parameter is unused by the source body as well. -/
def apply_intelligent_postprocessing (popFn : Track → ℚ) (relAdjFn : ℚ → ℚ)
    (tracks : List Track) (user_prompt : String) (_llm_analysis : Option Intent)
    (lim : Nat) : List Track :=
  if tracks.isEmpty then tracks
  else
    let withPop := tracks.map (fun t => { t with PopularityScore := popFn t })
    let deduped := deduplicate_tracks_by_title_keep_best withPop
    let withRel := compute_relative_popularity_by_genre relAdjFn deduped
    let filtered := filter_gross_incongruities withRel user_prompt
    let limited := limit_tracks_by_artist_album filtered 3 2
    (sortByScoreDesc limited).take lim

/-- Model of `adjust_limit_based_on_complexity` (utils.py lines 156-172):
one point each for a truthy country/decade/genre/mood, two for an artist;
high complexity tightens the limit. -/
def adjust_limit_based_on_complexity (_user_prompt : String) (base_limit : Nat)
    (analysis : Intent) : Nat :=
  let complexity :=
    (if optTruthy analysis.country then 1 else 0) +
    (if optTruthy analysis.decade then 1 else 0) +
    (if optTruthy analysis.genre then 1 else 0) +
    (if optTruthy analysis.mood then 1 else 0) +
    (if optTruthy analysis.artist then 2 else 0)
  if complexity ≥ 3 then min base_limit 20
  else if complexity = 2 then min base_limit 25
  else base_limit

/-! ## LLM response handling in the enhanced cycle

`call_ollama_safe` (services.py lines 52-64) never raises: a failed call
returns the dict `{"error": str(e)}`, and output in which no JSON could be
parsed even after the repair attempts returns `{"raw": text}`
(`extract_json_from_text(text) or {"raw": text}`, line 61).  The cycle body
runs
under one `try`/`except`; the operations that can raise are the accesses to
model-supplied data (attribute and item errors on ill-typed JSON), modelled
as `Except`-valued steps whose error branch reaches `emergency_fallback`. -/

/-- `result.get("filters", {}) if isinstance(result, dict) else {}`
(services.py line 540), composed with the `or {}` on the call result: any
non-object response reads as no filters. -/
def respFilters : JVal → JVal
  | JVal.jobj l => (jLookup l "filters").getD (JVal.jobj [])
  | _ => JVal.jobj []

/-- `result.get("suggestions", []) if isinstance(result, dict) else []`
(services.py line 541). -/
def respSugs : JVal → JVal
  | JVal.jobj l => (jLookup l "suggestions").getD (JVal.jarr [])
  | _ => JVal.jarr []

/-- Country-forcing step (services.py lines 546-549): item assignment on a
non-dict filter value raises. -/
def forceCountryE (analysis : Intent) (llm_filters : JVal) : Except String JVal :=
  if optTruthy analysis.country then
    match llm_filters with
    | JVal.jobj l => .ok (JVal.jobj (forceCountryFilters analysis l))
    | _ => .error "TypeError: item assignment"
  else .ok llm_filters

/-- Python `==` between a JSON value and a string key (used by `in` on a
list). -/
def isStrElem (k : String) : JVal → Bool
  | JVal.jstr s => s = k
  | _ => false

/-- The keys `parse_filters_from_llm` probes with `in`
(services.py lines 161, 209-211, 224). -/
def parseKeyNames : List String := "Decada" :: genreKeys ++ ["year"]

/-- `parse_filters_from_llm` on an arbitrary JSON value: dicts are parsed,
falsy values return the empty dict (services.py line 154), a truthy
number/bool fails the `in` probe, and a truthy string or list raises at the
item access `llm_filters[key]` when some probed key is a substring or an
element. -/
def parse_filters_from_llmE : JVal → Except String MQuery
  | JVal.jobj l => .ok (parse_filters_from_llm l)
  | JVal.jnull => .ok []
  | JVal.jbool b => if b then .error "TypeError: in" else .ok []
  | JVal.jnum n => if n = 0 then .ok [] else .error "TypeError: in"
  | JVal.jfloat q => if q = 0 then .ok [] else .error "TypeError: in"
  | JVal.jstr s =>
    if s = "" then .ok []
    else if parseKeyNames.any (fun k => containsSubstr s k) then
      .error "TypeError: string index"
    else .ok []
  | JVal.jarr xs =>
    if xs.isEmpty then .ok []
    else if parseKeyNames.any (fun k => xs.any (isStrElem k)) then
      .error "TypeError: list index"
    else .ok []

/-- A suggestion field is safe to read with `(s.get(k) or "").strip()`:
missing, string-valued, or falsy; a truthy non-string has no `.strip`. -/
def sFieldSafe (l : List (String × JVal)) (key : String) : Bool :=
  match jLookup l key with
  | none => true
  | some (JVal.jstr _) => true
  | some v => !jTruthy v

/-- A suggestion entry is safe for tier 1 (services.py lines 365-367): it
must be a dict and its three fields readable. -/
def sugSafe : JVal → Bool
  | JVal.jobj l => sFieldSafe l "titulo" && sFieldSafe l "artista" && sFieldSafe l "album"
  | _ => false

/-- Tier 1 with the raising field accesses: the loop breaks at the limit
before touching the next entry, so a late ill-typed entry is harmless. -/
def tier1E (find : FindOracle) (normalized : MQuery) (lim : Nat) :
    List JVal → SearchSt → Except String SearchSt
  | [], st => .ok st
  | s :: rest, st =>
    if st.1.length ≥ lim then .ok st
    else if sugSafe s then tier1E find normalized lim rest (tier1Step find normalized lim s st)
    else .error "AttributeError: get"

/-- What `for s in sugerencia` iterates over, when `len(sugerencia)` is
defined at all: a list iterates entries, a string its one-character
substrings, a dict its keys. -/
def sugIter : JVal → Option (List JVal)
  | JVal.jarr xs => some xs
  | JVal.jstr s => some (s.data.map (fun c => JVal.jstr (String.mk [c])))
  | JVal.jobj l => some (l.map (fun p => JVal.jstr p.1))
  | _ => none

/-- `search_tracks_in_mongo` as called from the enhanced cycle: the filter
argument is the already-normalized Mongo dict, re-parsed on entry
(services.py line 355), and the suggestion value is whatever the model
returned. -/
def search_tracks_in_mongoE (sug : JVal) (filters : MQuery) (lim : Nat)
    (find : FindOracle) (user_prompt : Option String) : Except String (List Track) :=
  match sugIter sug with
  | none => .error "TypeError: len"
  | some xs =>
    let normalized := parse_filters_from_llm (mqueryToJ filters)
    match tier1E find normalized lim xs ([], []) with
    | .error e => .error e
    | .ok st1 =>
      .ok (tier4 find xs normalized lim user_prompt
        (tier3 find normalized lim (tier2 find normalized lim st1))).1

/-! ## Phase-3 validation (postprocessing_utils.py lines 136-151)

A truthy model-returned suggestion list re-enters the track pipeline as
plain dicts.  Missing fields read with the pipeline's defaults (empty
string, zero, empty genre); a value the downstream pipeline cannot process
(a truthy non-string title, a non-numeric bitrate, a non-list non-string
genre) raises there, which the model collapses to conversion time — the
aborted run discards every intermediate value either way and lands in the
same `emergency_fallback`. -/

def jGetStrE (l : List (String × JVal)) (key : String) : Except String String :=
  match jLookup l key with
  | none => .ok ""
  | some (JVal.jstr s) => .ok s
  | some v => if jTruthy v then .error "AttributeError: lower" else .ok ""

def jGetNumE (l : List (String × JVal)) (key : String) : Except String ℚ :=
  match jLookup l key with
  | none => .ok 0
  | some (JVal.jnum n) => .ok (n : ℚ)
  | some (JVal.jfloat q) => .ok q
  | some (JVal.jbool b) => .ok (if b then 1 else 0)
  | some JVal.jnull => .ok 0
  | some _ => .error "TypeError: comparison"

def jGetGenE (l : List (String × JVal)) : Except String GenVal :=
  match jLookup l "Genero" with
  | none => .ok GenVal.gnone
  | some (JVal.jstr s) => .ok (GenVal.gstr s)
  | some (JVal.jarr xs) =>
    (xs.mapM (fun x => match x with
      | JVal.jstr s => Except.ok s
      | _ => Except.error "TypeError: join")).map GenVal.glist
  | some v => if jTruthy v then .error "TypeError: genre" else .ok GenVal.gnone

/-- Read one model-returned suggestion dict as a pipeline track. -/
def jToTrackE : JVal → Except String Track
  | JVal.jobj l => do
    let ti ← jGetStrE l "Titulo"
    let ar ← jGetStrE l "Artista"
    let al ← jGetStrE l "Album"
    let ru ← jGetStrE l "Ruta"
    let bi ← jGetNumE l "Bitrate"
    let ge ← jGetGenE l
    let ps ← jGetNumE l "PopularityScore"
    let rs ← jGetNumE l "RelativePopularityScore"
    let pc ← jGetNumE l "LastFMPlaycount"
    let li ← jGetNumE l "LastFMListeners"
    let yt ← jGetNumE l "YouTubeViews"
    pure ⟨ti, ar, al, ru, bi, ge, ps, rs, pc, li, yt⟩
  | _ => .error "TypeError: not a dict"

/-- Padding step of `extract_validated_tracks` (postprocessing_utils.py
lines 146-151): an empty or short validated list is topped up from the
unvalidated pool, then truncated. -/
def extract_validated_core (validated localTracks : List Track) (lim : Nat) : List Track :=
  if validated.isEmpty || validated.length < lim then
    let v := if validated.isEmpty then localTracks else validated
    let additional := localTracks.filter (fun t => t ∉ v)
    (v ++ additional.take (lim - v.length)).take lim
  else validated.take lim

/-- Model of `extract_validated_tracks` (postprocessing_utils.py lines
136-151): a dict response reads its `suggestions` (falsy → keep the local
tracks, truthy non-list → raise downstream), a list response is taken as
the validated list, any other response keeps the local tracks. -/
def extract_validated_tracks (result3 : JVal) (localTracks : List Track) (lim : Nat) :
    Except String (List Track) :=
  match result3 with
  | JVal.jobj l =>
    match jLookup l "suggestions" with
    | some v =>
      if jTruthy v then
        match v with
        | JVal.jarr xs =>
          (xs.mapM jToTrackE).map (fun ts => extract_validated_core ts localTracks lim)
        | _ => .error "TypeError: not a track list"
      else .ok (extract_validated_core localTracks localTracks lim)
    | none => .ok (extract_validated_core localTracks localTracks lim)
  | JVal.jarr xs =>
    (xs.mapM jToTrackE).map (fun ts => extract_validated_core ts localTracks lim)
  | _ => .ok (extract_validated_core localTracks localTracks lim)

/-! ## The enhanced hybrid cycle (services.py lines 512-686) -/

/-- The responses the engine hands to the model, one per phase, carrying
the call-site arguments of the prompt builders (services.py lines 535,
581-583, 623-625). -/
inductive PromptReq where
  | phase1 (user_prompt : String) (ctx : JVal) (analysis : Intent)
  | phase2 (user_prompt : String) (filters : MQuery) (current : List Track) (ctx : JVal)
      (missing : Nat) (analysis : Intent)
  | phase3 (user_prompt : String) (filters : MQuery) (current : List Track) (ctx : JVal)
      (analysis : Intent)

/-- The model as an oracle: one JSON value per prompt, as returned by
`call_ollama_safe` (which catches its own errors). -/
abbrev LLMOracle := PromptReq → JVal

/-- The response dict of `finalize_enhanced_response` (finalize.py lines
67-122), restricted to its data fields (the wall-clock metrics and the
display URLs added onto the track dicts fall outside the model). -/
structure Response where
  query_original : String
  playlist_name : String
  results : List Track
  total : Nat
  phase : Int
  filters_applied : JVal
  limit_requested : Nat
  llm_analysis : Option Intent
  deriving Repr

/-- Model of `finalize_enhanced_response`. -/
def finalize_enhanced_response (prompt : String) (filters : JVal) (tracks : List Track)
    (iterations : Int) (lim : Nat) (analysis : Option Intent) : Response :=
  { query_original := prompt
    playlist_name := String.mk (prompt.data.take 60)
    results := tracks
    total := tracks.length
    phase := iterations
    filters_applied := filters
    limit_requested := lim
    llm_analysis := analysis }

structure P1Carry where
  analysis : Intent
  adjusted : Nat
  filters : MQuery
  p1 : List Track

structure P2Carry where
  analysis : Intent
  adjusted : Nat
  filters2 : MQuery
  fp2 : List Track

/-- Phase 1 (services.py lines 534-575): model call, country forcing,
filter parsing and enrichment, local search, postprocessing; finalize
early when the adjusted limit is already met. -/
def phase1E (find : FindOracle) (llm : LLMOracle) (popFn : Track → ℚ) (relAdjFn : ℚ → ℚ)
    (ctx : JVal) (prompt : String) (analysis : Intent) (adjusted : Nat) :
    Except String (Response ⊕ P1Carry) := do
  let r1 := llm (PromptReq.phase1 prompt ctx analysis)
  let lf ← forceCountryE analysis (respFilters r1)
  let f1 ← parse_filters_from_llmE lf
  let filters := enrich_filters_with_acoustics prompt f1
  let lt ← search_tracks_in_mongoE (respSugs r1) filters adjusted find (some prompt)
  let p1 := apply_intelligent_postprocessing popFn relAdjFn lt prompt (some analysis) adjusted
  if p1.length ≥ adjusted then
    pure (Sum.inl (finalize_enhanced_response prompt (JVal.jobj (mqueryToJ filters)) p1 1
      adjusted (some analysis)))
  else
    pure (Sum.inr ⟨analysis, adjusted, filters, p1⟩)

/-- Phase 2 (services.py lines 577-619): completion call, filter merge on a
truthy `filters` value, a second search for twice the missing count,
postprocessing of the new tracks, then of the combined list. -/
def phase2E (find : FindOracle) (llm : LLMOracle) (popFn : Track → ℚ) (relAdjFn : ℚ → ℚ)
    (ctx : JVal) (prompt : String) (c : P1Carry) : Except String (Response ⊕ P2Carry) := do
  let missing := c.adjusted - c.p1.length
  let r2 := llm (PromptReq.phase2 prompt c.filters c.p1 ctx missing c.analysis)
  let nf := respFilters r2
  let filters2 ← if jTruthy nf then
      (parse_filters_from_llmE nf).map
        (fun d => d.foldl (fun acc kv => setKey acc kv.1 kv.2) c.filters)
    else pure c.filters
  let lt2 ← search_tracks_in_mongoE (respSugs r2) filters2 (missing * 2) find (some prompt)
  let p2 := apply_intelligent_postprocessing popFn relAdjFn lt2 prompt (some c.analysis) missing
  let all2 := c.p1 ++ p2
  let fp2 := apply_intelligent_postprocessing popFn relAdjFn all2 prompt (some c.analysis)
    c.adjusted
  if fp2.length ≥ c.adjusted then
    pure (Sum.inl (finalize_enhanced_response prompt (JVal.jobj (mqueryToJ filters2)) fp2 2
      c.adjusted (some c.analysis)))
  else
    pure (Sum.inr ⟨c.analysis, c.adjusted, filters2, fp2⟩)

/-- Phase 3 (services.py lines 621-655): validation call, extraction, a
final safety postprocessing, finalize. -/
def phase3E (_find : FindOracle) (llm : LLMOracle) (popFn : Track → ℚ) (relAdjFn : ℚ → ℚ)
    (ctx : JVal) (prompt : String) (c : P2Carry) : Except String Response := do
  let r3raw := llm (PromptReq.phase3 prompt c.filters2 c.fp2 ctx c.analysis)
  let r3 := if jTruthy r3raw then r3raw else JVal.jobj []
  let validated ← extract_validated_tracks r3 c.fp2 c.adjusted
  let final := apply_intelligent_postprocessing popFn relAdjFn validated prompt
    (some c.analysis) c.adjusted
  pure (finalize_enhanced_response prompt (JVal.jobj (mqueryToJ c.filters2)) final 3
    c.adjusted (some c.analysis))

/-- Model of `emergency_fallback` (services.py lines 661-686): a broad
keyword query when the prompt has a word longer than three characters —
returned even when its postprocessed result is empty — otherwise the
popularity query. -/
def emergency_fallback (find : FindOracle) (popFn : Track → ℚ) (relAdjFn : ℚ → ℚ)
    (user_prompt : String) (lim : Nat) (error_msg : String) : Response :=
  match promptWords (pyLower user_prompt) with
  | [] =>
    let random_tracks := find ⟨[], some ("PopularityScore", -1), lim⟩
    let processed := apply_intelligent_postprocessing popFn relAdjFn random_tracks
      user_prompt none lim
    finalize_enhanced_response user_prompt
      (JVal.jobj [("emergency_fallback", JVal.jbool true)]) processed 0 lim none
  | ws =>
    let q : MQuery := [("$or", MVal.orQ
      (ws.map (fun w => [("Genero", MVal.regexCI w)]) ++
       ws.map (fun w => [("Titulo", MVal.regexCI w)]) ++
       ws.map (fun w => [("Artista", MVal.regexCI w)])))]
    let fallback_tracks := find ⟨q, none, lim * 2⟩
    let processed := apply_intelligent_postprocessing popFn relAdjFn fallback_tracks
      user_prompt none lim
    finalize_enhanced_response user_prompt
      (JVal.jobj [("fallback", JVal.jbool true), ("error", JVal.jstr error_msg)])
      processed 0 lim none

/-- The `try` body of `hybrid_playlist_cycle_enhanced` (services.py lines
519-655): analysis (computed when not supplied, then region-enhanced),
limit adjustment, and the three phases with early finalization. -/
def hybrid_cycle_bodyE (find : FindOracle) (llm : LLMOracle) (popFn : Track → ℚ)
    (relAdjFn : ℚ → ℚ) (ctx : JVal) (aor : Option JVal) (prompt : String)
    (default_limit : Nat) (analysis0 : Option Intent) : Except String Response := do
  let analysis := enhance_region_detection
    (match analysis0 with
      | some a => a
      | none => analyze_query_intent aor prompt) prompt
  let adjusted := adjust_limit_based_on_complexity prompt default_limit analysis
  match ← phase1E find llm popFn relAdjFn ctx prompt analysis adjusted with
  | Sum.inl r => pure r
  | Sum.inr c1 =>
    match ← phase2E find llm popFn relAdjFn ctx prompt c1 with
    | Sum.inl r => pure r
    | Sum.inr c2 => phase3E find llm popFn relAdjFn ctx prompt c2

/-- Model of `hybrid_playlist_cycle_enhanced` (services.py lines 512-659):
the body's exception path lands in `emergency_fallback` with the default
limit. -/
def hybrid_playlist_cycle_enhanced (find : FindOracle) (llm : LLMOracle)
    (popFn : Track → ℚ) (relAdjFn : ℚ → ℚ) (ctx : JVal) (aor : Option JVal)
    (prompt : String) (default_limit : Nat) (analysis0 : Option Intent) : Response :=
  match hybrid_cycle_bodyE find llm popFn relAdjFn ctx aor prompt default_limit analysis0 with
  | .ok r => r
  | .error e => emergency_fallback find popFn relAdjFn prompt default_limit e

/-! ## Length bounds along every pipeline path -/

theorem exceptBind_ok {α β : Type} {x : Except String α} {f : α → Except String β} {b : β}
    (h : x >>= f = Except.ok b) : ∃ a, x = Except.ok a ∧ f a = Except.ok b := by
  cases x with
  | error e => exact Except.noConfusion h
  | ok a => exact ⟨a, rfl, h⟩

theorem postproc_length_le (popFn : Track → ℚ) (relAdjFn : ℚ → ℚ) (tracks : List Track)
    (prompt : String) (an : Option Intent) (lim : Nat) :
    (apply_intelligent_postprocessing popFn relAdjFn tracks prompt an lim).length ≤ lim := by
  rw [apply_intelligent_postprocessing]
  split
  · rename_i h
    rw [List.isEmpty_iff.mp h]
    exact Nat.zero_le _
  · exact List.length_take_le _ _

theorem adjust_limit_le (p : String) (dl : Nat) (a : Intent) :
    adjust_limit_based_on_complexity p dl a ≤ dl := by
  rw [adjust_limit_based_on_complexity]
  split_ifs <;> omega

theorem emergency_fallback_bound (find : FindOracle) (popFn : Track → ℚ)
    (relAdjFn : ℚ → ℚ) (prompt : String) (lim : Nat) (msg : String) :
    (emergency_fallback find popFn relAdjFn prompt lim msg).results.length ≤ lim ∧
    (emergency_fallback find popFn relAdjFn prompt lim msg).limit_requested = lim := by
  rw [emergency_fallback]
  cases hw : promptWords (pyLower prompt) with
  | nil =>
    exact ⟨postproc_length_le popFn relAdjFn
      (find ⟨[], some ("PopularityScore", -1), lim⟩) prompt none lim, rfl⟩
  | cons w ws =>
    exact ⟨postproc_length_le popFn relAdjFn
      (find ⟨[("$or", MVal.orQ
        ((w :: ws).map (fun x => [("Genero", MVal.regexCI x)]) ++
         (w :: ws).map (fun x => [("Titulo", MVal.regexCI x)]) ++
         (w :: ws).map (fun x => [("Artista", MVal.regexCI x)])))], none, lim * 2⟩)
      prompt none lim, rfl⟩

theorem phase1E_inl (find : FindOracle) (llm : LLMOracle) (popFn : Track → ℚ)
    (relAdjFn : ℚ → ℚ) (ctx : JVal) (prompt : String) (analysis : Intent) (adjusted : Nat)
    (r : Response)
    (h : phase1E find llm popFn relAdjFn ctx prompt analysis adjusted =
      Except.ok (Sum.inl r)) :
    r.results.length ≤ adjusted ∧ r.limit_requested = adjusted := by
  rw [phase1E] at h
  obtain ⟨lf, _, h⟩ := exceptBind_ok h
  obtain ⟨f1, _, h⟩ := exceptBind_ok h
  obtain ⟨lt, _, h⟩ := exceptBind_ok h
  dsimp only at h
  split at h
  · simp only [pure, Except.pure, Except.ok.injEq, Sum.inl.injEq] at h
    subst h
    refine ⟨?_, rfl⟩
    dsimp only [finalize_enhanced_response]
    exact postproc_length_le _ _ _ _ _ _
  · simp only [pure, Except.pure, Except.ok.injEq] at h
    exact absurd h (by simp)

theorem phase1E_inr (find : FindOracle) (llm : LLMOracle) (popFn : Track → ℚ)
    (relAdjFn : ℚ → ℚ) (ctx : JVal) (prompt : String) (analysis : Intent) (adjusted : Nat)
    (c : P1Carry)
    (h : phase1E find llm popFn relAdjFn ctx prompt analysis adjusted =
      Except.ok (Sum.inr c)) :
    c.adjusted = adjusted := by
  rw [phase1E] at h
  obtain ⟨lf, _, h⟩ := exceptBind_ok h
  obtain ⟨f1, _, h⟩ := exceptBind_ok h
  obtain ⟨lt, _, h⟩ := exceptBind_ok h
  dsimp only at h
  split at h
  · simp only [pure, Except.pure, Except.ok.injEq] at h
    exact absurd h (by simp)
  · simp only [pure, Except.pure, Except.ok.injEq, Sum.inr.injEq] at h
    subst h
    rfl

theorem phase2E_inl (find : FindOracle) (llm : LLMOracle) (popFn : Track → ℚ)
    (relAdjFn : ℚ → ℚ) (ctx : JVal) (prompt : String) (c : P1Carry) (r : Response)
    (h : phase2E find llm popFn relAdjFn ctx prompt c = Except.ok (Sum.inl r)) :
    r.results.length ≤ c.adjusted ∧ r.limit_requested = c.adjusted := by
  rw [phase2E] at h
  split at h
  · obtain ⟨f2, _, h⟩ := exceptBind_ok h
    try dsimp only at h
    obtain ⟨lt2, _, h⟩ := exceptBind_ok h
    try dsimp only at h
    split at h
    · simp only [pure, Except.pure, Except.ok.injEq, Sum.inl.injEq] at h
      subst h
      refine ⟨?_, rfl⟩
      dsimp only [finalize_enhanced_response]
      exact postproc_length_le _ _ _ _ _ _
    · simp only [pure, Except.pure, Except.ok.injEq] at h
      exact absurd h (by simp)
  · obtain ⟨f2, _, h⟩ := exceptBind_ok h
    try dsimp only at h
    obtain ⟨lt2, _, h⟩ := exceptBind_ok h
    try dsimp only at h
    split at h
    · simp only [pure, Except.pure, Except.ok.injEq, Sum.inl.injEq] at h
      subst h
      refine ⟨?_, rfl⟩
      dsimp only [finalize_enhanced_response]
      exact postproc_length_le _ _ _ _ _ _
    · simp only [pure, Except.pure, Except.ok.injEq] at h
      exact absurd h (by simp)

theorem phase2E_inr (find : FindOracle) (llm : LLMOracle) (popFn : Track → ℚ)
    (relAdjFn : ℚ → ℚ) (ctx : JVal) (prompt : String) (c : P1Carry) (c2 : P2Carry)
    (h : phase2E find llm popFn relAdjFn ctx prompt c = Except.ok (Sum.inr c2)) :
    c2.adjusted = c.adjusted := by
  rw [phase2E] at h
  split at h
  · obtain ⟨f2, _, h⟩ := exceptBind_ok h
    try dsimp only at h
    obtain ⟨lt2, _, h⟩ := exceptBind_ok h
    try dsimp only at h
    split at h
    · simp only [pure, Except.pure, Except.ok.injEq] at h
      exact absurd h (by simp)
    · simp only [pure, Except.pure, Except.ok.injEq, Sum.inr.injEq] at h
      subst h
      rfl
  · obtain ⟨f2, _, h⟩ := exceptBind_ok h
    try dsimp only at h
    obtain ⟨lt2, _, h⟩ := exceptBind_ok h
    try dsimp only at h
    split at h
    · simp only [pure, Except.pure, Except.ok.injEq] at h
      exact absurd h (by simp)
    · simp only [pure, Except.pure, Except.ok.injEq, Sum.inr.injEq] at h
      subst h
      rfl

theorem phase3E_ok (find : FindOracle) (llm : LLMOracle) (popFn : Track → ℚ)
    (relAdjFn : ℚ → ℚ) (ctx : JVal) (prompt : String) (c : P2Carry) (r : Response)
    (h : phase3E find llm popFn relAdjFn ctx prompt c = Except.ok r) :
    r.results.length ≤ c.adjusted ∧ r.limit_requested = c.adjusted := by
  rw [phase3E] at h
  obtain ⟨validated, _, h⟩ := exceptBind_ok h
  dsimp only at h
  simp only [pure, Except.pure, Except.ok.injEq] at h
  subst h
  refine ⟨?_, rfl⟩
  dsimp only [finalize_enhanced_response]
  exact postproc_length_le _ _ _ _ _ _

theorem hybrid_cycle_ok_bound (find : FindOracle) (llm : LLMOracle) (popFn : Track → ℚ)
    (relAdjFn : ℚ → ℚ) (ctx : JVal) (aor : Option JVal) (prompt : String)
    (dl : Nat) (a0 : Option Intent) (r : Response)
    (h : hybrid_cycle_bodyE find llm popFn relAdjFn ctx aor prompt dl a0 = Except.ok r) :
    r.results.length ≤ r.limit_requested ∧ r.limit_requested ≤ dl := by
  rw [hybrid_cycle_bodyE.eq_def] at h
  dsimp only at h
  obtain ⟨x, hx, h⟩ := exceptBind_ok h
  cases x with
  | inl r1 =>
    dsimp only at h
    simp only [pure, Except.pure, Except.ok.injEq] at h
    subst h
    have h1 := phase1E_inl _ _ _ _ _ _ _ _ _ hx
    exact ⟨h1.2 ▸ h1.1, h1.2 ▸ adjust_limit_le _ _ _⟩
  | inr c1 =>
    dsimp only at h
    have hc1 := phase1E_inr _ _ _ _ _ _ _ _ _ hx
    obtain ⟨y, hy, h⟩ := exceptBind_ok h
    cases y with
    | inl r2 =>
      dsimp only at h
      simp only [pure, Except.pure, Except.ok.injEq] at h
      subst h
      have h2 := phase2E_inl _ _ _ _ _ _ _ _ hy
      exact ⟨h2.2 ▸ h2.1, h2.2 ▸ hc1 ▸ adjust_limit_le _ _ _⟩
    | inr c2 =>
      dsimp only at h
      have hc2 := phase2E_inr _ _ _ _ _ _ _ _ hy
      have h3 := phase3E_ok _ _ _ _ _ _ _ _ h
      exact ⟨h3.2 ▸ h3.1, h3.2 ▸ hc2 ▸ hc1 ▸ adjust_limit_le _ _ _⟩

/-- **C1.**  For every catalog oracle, model oracle and input, every path of
the assembly pipeline respects its limit argument:
`apply_intelligent_postprocessing` returns at most `lim` tracks, the
emergency fallback returns at most `lim` tracks and reports `lim` as the
requested limit, and the enhanced hybrid cycle returns a response whose
track list is bounded by its reported limit, itself at most the caller's
default limit. -/
theorem C1_result_length_bounds :
    (∀ (popFn : Track → ℚ) (relAdjFn : ℚ → ℚ) (tracks : List Track) (prompt : String)
      (an : Option Intent) (lim : Nat),
      (apply_intelligent_postprocessing popFn relAdjFn tracks prompt an lim).length ≤ lim) ∧
    (∀ (find : FindOracle) (popFn : Track → ℚ) (relAdjFn : ℚ → ℚ) (prompt : String)
      (lim : Nat) (msg : String),
      (emergency_fallback find popFn relAdjFn prompt lim msg).results.length ≤ lim) ∧
    (∀ (find : FindOracle) (llm : LLMOracle) (popFn : Track → ℚ) (relAdjFn : ℚ → ℚ)
      (ctx : JVal) (aor : Option JVal) (prompt : String) (dl : Nat) (a0 : Option Intent),
      (hybrid_playlist_cycle_enhanced find llm popFn relAdjFn ctx aor prompt dl
        a0).results.length ≤
        (hybrid_playlist_cycle_enhanced find llm popFn relAdjFn ctx aor prompt dl
          a0).limit_requested ∧
      (hybrid_playlist_cycle_enhanced find llm popFn relAdjFn ctx aor prompt dl
        a0).limit_requested ≤ dl) := by
  refine ⟨postproc_length_le, ?_, ?_⟩
  · intro find popFn relAdjFn prompt lim msg
    exact (emergency_fallback_bound find popFn relAdjFn prompt lim msg).1
  · intro find llm popFn relAdjFn ctx aor prompt dl a0
    rw [hybrid_playlist_cycle_enhanced.eq_def]
    cases hb : hybrid_cycle_bodyE find llm popFn relAdjFn ctx aor prompt dl a0 with
    | ok r =>
      dsimp only
      exact hybrid_cycle_ok_bound _ _ _ _ _ _ _ _ _ _ hb
    | error e =>
      dsimp only
      have he := emergency_fallback_bound find popFn relAdjFn prompt dl e
      exact ⟨le_of_le_of_eq he.1 he.2.symm, le_of_eq he.2⟩

/-! ## Failed and unparseable model calls behave as empty model responses

`call_ollama_safe` (services.py lines 52-64) never lets a model failure
escape: an exception of the call returns the dict `{"error": str(e)}`, and
response text in which no JSON object or array can be parsed even after the
repair pass of `extract_json_from_text` returns `{"raw": text}`
(services.py line 61).  `normErr` replaces exactly those two single-key
response shapes by the explicit "zero suggestions, zero extra filters"
response; the cycle cannot tell them apart. -/

/-- Map the failure dicts of `call_ollama_safe` — `{"error": msg}` from a
failed call and `{"raw": text}` from unparseable output — to the explicit
empty response; leave every other response unchanged. -/
def normErr : JVal → JVal
  | JVal.jobj [(k, JVal.jstr m)] =>
    if k = "error" ∨ k = "raw" then
      JVal.jobj [("suggestions", JVal.jarr []), ("filters", JVal.jobj [])]
    else JVal.jobj [(k, JVal.jstr m)]
  | v => v

theorem respFilters_normErr (v : JVal) : respFilters (normErr v) = respFilters v := by
  rw [normErr.eq_def]
  split
  · split
    · rename_i hk
      rcases hk with hk | hk <;> subst hk <;> rfl
    · rfl
  · rfl

theorem respSugs_normErr (v : JVal) : respSugs (normErr v) = respSugs v := by
  rw [normErr.eq_def]
  split
  · split
    · rename_i hk
      rcases hk with hk | hk <;> subst hk <;> rfl
    · rfl
  · rfl

theorem jTruthy_normErr (v : JVal) : jTruthy (normErr v) = jTruthy v := by
  rw [normErr.eq_def]
  split
  · split
    · rename_i hk
      rcases hk with hk | hk <;> subst hk <;> rfl
    · rfl
  · rfl

theorem extract_normErr (v : JVal) (l : List Track) (lim : Nat) :
    extract_validated_tracks (if jTruthy (normErr v) then normErr v else JVal.jobj []) l lim =
    extract_validated_tracks (if jTruthy v then v else JVal.jobj []) l lim := by
  rw [jTruthy_normErr]
  split
  · rw [normErr.eq_def]
    split
    · split
      · rename_i hk
        rcases hk with hk | hk <;> subst hk <;> rfl
      · rfl
    · rfl
  · rfl

theorem phase1E_normErr (find : FindOracle) (llm : LLMOracle) (popFn : Track → ℚ)
    (relAdjFn : ℚ → ℚ) (ctx : JVal) (prompt : String) (analysis : Intent) (adjusted : Nat) :
    phase1E find (fun p => normErr (llm p)) popFn relAdjFn ctx prompt analysis adjusted =
    phase1E find llm popFn relAdjFn ctx prompt analysis adjusted := by
  simp only [phase1E, respFilters_normErr, respSugs_normErr]

theorem phase2E_normErr (find : FindOracle) (llm : LLMOracle) (popFn : Track → ℚ)
    (relAdjFn : ℚ → ℚ) (ctx : JVal) (prompt : String) (c : P1Carry) :
    phase2E find (fun p => normErr (llm p)) popFn relAdjFn ctx prompt c =
    phase2E find llm popFn relAdjFn ctx prompt c := by
  simp only [phase2E, respFilters_normErr, respSugs_normErr]

theorem phase3E_normErr (find : FindOracle) (llm : LLMOracle) (popFn : Track → ℚ)
    (relAdjFn : ℚ → ℚ) (ctx : JVal) (prompt : String) (c : P2Carry) :
    phase3E find (fun p => normErr (llm p)) popFn relAdjFn ctx prompt c =
    phase3E find llm popFn relAdjFn ctx prompt c := by
  simp only [phase3E, extract_normErr]

theorem hybrid_cycle_bodyE_normErr (find : FindOracle) (llm : LLMOracle) (popFn : Track → ℚ)
    (relAdjFn : ℚ → ℚ) (ctx : JVal) (aor : Option JVal) (prompt : String) (dl : Nat)
    (a0 : Option Intent) :
    hybrid_cycle_bodyE find (fun p => normErr (llm p)) popFn relAdjFn ctx aor prompt dl a0 =
    hybrid_cycle_bodyE find llm popFn relAdjFn ctx aor prompt dl a0 := by
  simp only [hybrid_cycle_bodyE, phase1E_normErr, phase2E_normErr, phase3E_normErr]

/-- **C3.**  A model call that fails (timeout/connection error) or whose
output cannot be parsed as JSON after the repair attempts — which
`call_ollama_safe` turns into the dicts `{"error": msg}` and
`{"raw": text}` respectively instead of raising — makes the engine behave
exactly as if the model had returned zero suggestions and zero extra
filters: replacing any subset of responses of an arbitrary model oracle by
their failure-normalized form (which maps exactly those two dict shapes to
`{"suggestions": [], "filters": {}}`) leaves the final response of the
enhanced hybrid cycle unchanged, on every phase and for every catalog
oracle; no model error is surfaced to the caller. -/
theorem C3_llm_failure_equiv :
    (∀ m : String, normErr (JVal.jobj [("error", JVal.jstr m)]) =
      JVal.jobj [("suggestions", JVal.jarr []), ("filters", JVal.jobj [])]) ∧
    (∀ t : String, normErr (JVal.jobj [("raw", JVal.jstr t)]) =
      JVal.jobj [("suggestions", JVal.jarr []), ("filters", JVal.jobj [])]) ∧
    (∀ (find : FindOracle) (llm : LLMOracle) (popFn : Track → ℚ) (relAdjFn : ℚ → ℚ)
      (ctx : JVal) (aor : Option JVal) (prompt : String) (dl : Nat) (a0 : Option Intent),
      hybrid_playlist_cycle_enhanced find (fun p => normErr (llm p)) popFn relAdjFn ctx aor
        prompt dl a0 =
      hybrid_playlist_cycle_enhanced find llm popFn relAdjFn ctx aor prompt dl a0) := by
  refine ⟨?_, ?_, ?_⟩
  · intro m
    rfl
  · intro t
    rfl
  · intro find llm popFn relAdjFn ctx aor prompt dl a0
    rw [hybrid_playlist_cycle_enhanced.eq_def, hybrid_playlist_cycle_enhanced.eq_def,
      hybrid_cycle_bodyE_normErr]

/-! ## The fallback ladder runs only on exceptions -/

/-- Fixture: a catalog track with no genre metadata, which the incongruity
filter always keeps. -/
def cancionTrack : Track :=
  { Titulo := "Cancion Uno", Artista := "Artista", Album := "",
    Ruta := "/music/cancion_uno.flac", Bitrate := 320, Genero := GenVal.gnone,
    PopularityScore := 0, RelativePopularityScore := 0,
    LastFMPlaycount := 0, LastFMListeners := 0, YouTubeViews := 0 }

/-- Claim C2 counterexample: a catalog oracle that returns a surviving
track for every query, the prompt "la la" (no token longer than three
characters) and a failing model.  Every tier of every phase skips its
catalog query, so the cycle returns the empty list as a normal phase-3
response even though the catalog is non-empty — the emergency
keyword-or-popularity ladder, which would have returned the track, runs
only from the exception handler and is never consulted. -/
theorem C2_counterexample :
    (∀ req : FindReq, (fun _ : FindReq => [cancionTrack]) req ≠ []) ∧
    (hybrid_playlist_cycle_enhanced (fun _ => [cancionTrack])
      (fun _ => JVal.jobj [("error", JVal.jstr "timeout")]) (fun _ => 0) (fun q => q)
      (JVal.jobj []) none "la la" 40 none).results = [] ∧
    (hybrid_playlist_cycle_enhanced (fun _ => [cancionTrack])
      (fun _ => JVal.jobj [("error", JVal.jstr "timeout")]) (fun _ => 0) (fun q => q)
      (JVal.jobj []) none "la la" 40 none).phase = 3 ∧
    (emergency_fallback (fun _ => [cancionTrack]) (fun _ => 0) (fun q => q) "la la" 40
      "msg").results = [cancionTrack] :=
  ⟨fun _ => List.cons_ne_nil _ _, rfl, rfl, rfl⟩

/-- **C2 (amended).**  The empty case is indeed returned as a normal
response, but the fallback ladder does not guarantee non-emptiness on a
non-empty catalog: whenever the cycle body completes without an exception
its response — empty or not — is returned as is and the emergency fallback
is not consulted; when the fallback does run, it issues the catalog-wide
popularity query if the prompt has no token longer than three characters,
and otherwise returns the postprocessed keyword query result even when that
result is empty. -/
theorem C2_empty_is_normal_amended :
    (∀ (find : FindOracle) (llm : LLMOracle) (popFn : Track → ℚ) (relAdjFn : ℚ → ℚ)
      (ctx : JVal) (aor : Option JVal) (prompt : String) (dl : Nat) (a0 : Option Intent)
      (r : Response),
      hybrid_cycle_bodyE find llm popFn relAdjFn ctx aor prompt dl a0 = Except.ok r →
      hybrid_playlist_cycle_enhanced find llm popFn relAdjFn ctx aor prompt dl a0 = r) ∧
    (∀ (find : FindOracle) (popFn : Track → ℚ) (relAdjFn : ℚ → ℚ) (prompt : String)
      (lim : Nat) (msg : String),
      promptWords (pyLower prompt) = [] →
      (emergency_fallback find popFn relAdjFn prompt lim msg).results =
        apply_intelligent_postprocessing popFn relAdjFn
          (find ⟨[], some ("PopularityScore", -1), lim⟩) prompt none lim) ∧
    (∀ (find : FindOracle) (popFn : Track → ℚ) (relAdjFn : ℚ → ℚ) (prompt : String)
      (lim : Nat) (msg : String) (w : String) (ws : List String),
      promptWords (pyLower prompt) = w :: ws →
      (emergency_fallback find popFn relAdjFn prompt lim msg).results =
        apply_intelligent_postprocessing popFn relAdjFn
          (find ⟨[("$or", MVal.orQ
            ((w :: ws).map (fun x => [("Genero", MVal.regexCI x)]) ++
             (w :: ws).map (fun x => [("Titulo", MVal.regexCI x)]) ++
             (w :: ws).map (fun x => [("Artista", MVal.regexCI x)])))], none, lim * 2⟩)
          prompt none lim) := by
  refine ⟨?_, ?_, ?_⟩
  · intro find llm popFn relAdjFn ctx aor prompt dl a0 r h
    rw [hybrid_playlist_cycle_enhanced.eq_def, h]
  · intro find popFn relAdjFn prompt lim msg h
    rw [emergency_fallback, h]
    rfl
  · intro find popFn relAdjFn prompt lim msg w ws h
    rw [emergency_fallback, h]
    rfl

/-- Witness: the amended theorem at the la-la scenario — the body completes
normally with an empty phase-3 response, and the fallback's popularity
branch on the same inputs. -/
theorem C2_empty_is_normal_amended_witness :
    hybrid_cycle_bodyE (fun _ => [cancionTrack])
        (fun _ => JVal.jobj [("error", JVal.jstr "timeout")]) (fun _ => 0) (fun q => q)
        (JVal.jobj []) none "la la" 40 none =
      Except.ok (finalize_enhanced_response "la la" (JVal.jobj []) [] 3 40
        (some (enhance_region_detection (analyze_query_intent none "la la") "la la"))) ∧
    hybrid_playlist_cycle_enhanced (fun _ => [cancionTrack])
        (fun _ => JVal.jobj [("error", JVal.jstr "timeout")]) (fun _ => 0) (fun q => q)
        (JVal.jobj []) none "la la" 40 none =
      finalize_enhanced_response "la la" (JVal.jobj []) [] 3 40
        (some (enhance_region_detection (analyze_query_intent none "la la") "la la")) ∧
    promptWords (pyLower "la la") = [] ∧
    (emergency_fallback (fun _ => [cancionTrack]) (fun _ => 0) (fun q => q) "la la" 40
      "msg").results =
      apply_intelligent_postprocessing (fun _ => 0) (fun q => q) [cancionTrack]
        "la la" none 40 :=
  ⟨rfl,
   C2_empty_is_normal_amended.1 _ _ _ _ _ _ _ _ _ _ rfl,
   rfl,
   C2_empty_is_normal_amended.2.1 _ _ _ _ _ _ rfl⟩

/-! ## Real-valued score formulas (popularity_utils.py lines 11-66, 100-105)

The float computations are modelled over ℝ.  Python's `round(x, 4)` rounds
half-to-even where Mathlib's `round` rounds half-up; the two agree except at
exact midpoints and share endpoints and monotonicity, which is all the range
claims use. -/

/-- `norm_safe` (popularity_utils.py lines 11-16). -/
noncomputable def norm_safe (v M : ℝ) : ℝ := if M > 0 then v / M else 0

/-- `math.log1p`. -/
noncomputable def log1p (x : ℝ) : ℝ := Real.log (1 + x)

/-- `round(x, 4)`. -/
noncomputable def round4 (x : ℝ) : ℝ := (round (x * 10000) : ℤ) / 10000

/-- Model of `compute_popularity` (popularity_utils.py lines 49-66): the
0.5/0.3/0.2-weighted sum of the log-normalized engagement metrics, rounded
to four decimals. -/
noncomputable def compute_popularity (t : Track) (maxPlay maxList maxYT : ℝ) : ℝ :=
  round4 (norm_safe (log1p (t.LastFMPlaycount : ℝ)) (log1p maxPlay) * 0.5 +
          norm_safe (log1p (t.LastFMListeners : ℝ)) (log1p maxList) * 0.3 +
          norm_safe (log1p (t.YouTubeViews : ℝ)) (log1p maxYT) * 0.2)

/-- `max(scores) if scores else 1` over ℝ. -/
noncomputable def pyMaxR : List ℝ → ℝ
  | [] => 1
  | x :: xs => xs.foldl max x

/-- The per-track relative score of `compute_relative_popularity_by_genre`
(popularity_utils.py lines 100-105): normalize against the bucket maximum,
apply the perceptual curve `sqrt(rel) * 0.8 + 0.2`, round to four
decimals. -/
noncomputable def relative_popularity_formula (scores : List ℝ) (s : ℝ) : ℝ :=
  round4 (Real.sqrt (norm_safe s (pyMaxR scores)) * 0.8 + 0.2)

theorem norm_safe_nonneg (v M : ℝ) (h0 : 0 ≤ v) : 0 ≤ norm_safe v M := by
  rw [norm_safe]
  split
  · rename_i hM
    exact div_nonneg h0 hM.le
  · exact le_rfl

theorem norm_safe_le_one (v M : ℝ) (h1 : v ≤ M) : norm_safe v M ≤ 1 := by
  rw [norm_safe]
  split
  · rename_i hM
    exact (div_le_one hM).2 h1
  · exact zero_le_one

theorem log1p_nonneg (x : ℝ) (h : 0 ≤ x) : 0 ≤ log1p x :=
  Real.log_nonneg (by linarith)

theorem log1p_le_log1p (x y : ℝ) (h0 : 0 ≤ x) (h : x ≤ y) : log1p x ≤ log1p y :=
  Real.log_le_log (by linarith) (by linarith)

theorem round4_mono {x y : ℝ} (h : x ≤ y) : round4 x ≤ round4 y := by
  rw [round4, round4]
  have hr : round (x * 10000) ≤ round (y * 10000) := by
    rw [round_eq, round_eq]
    exact Int.floor_mono (by linarith)
  have hc : ((round (x * 10000) : ℤ) : ℝ) ≤ ((round (y * 10000) : ℤ) : ℝ) :=
    Int.cast_le.2 hr
  linarith

theorem round4_zero : round4 0 = 0 := by
  have h : ((0 : ℝ) * 10000) = ((0 : ℤ) : ℝ) := by norm_num
  rw [round4, h, round_intCast]
  norm_num

theorem round4_one : round4 1 = 1 := by
  have h : ((1 : ℝ) * 10000) = ((10000 : ℤ) : ℝ) := by norm_num
  rw [round4, h, round_intCast]
  norm_num

theorem round4_fifth : round4 0.2 = 0.2 := by
  have h : ((0.2 : ℝ) * 10000) = ((2000 : ℤ) : ℝ) := by norm_num
  rw [round4, h, round_intCast]
  norm_num

theorem le_foldl_max (l : List ℝ) : ∀ (acc x : ℝ), x = acc ∨ x ∈ l → x ≤ l.foldl max acc := by
  induction l with
  | nil =>
    intro acc x h
    rcases h with h | h
    · exact h.le
    · cases h
  | cons y ys ih =>
    intro acc x h
    rcases h with h | h
    · subst h
      exact le_trans (le_max_left x y) (ih (max x y) _ (Or.inl rfl))
    · rcases List.mem_cons.1 h with h | h
      · subst h
        exact le_trans (le_max_right acc x) (ih (max acc x) _ (Or.inl rfl))
      · exact ih (max acc y) x (Or.inr h)

theorem le_pyMaxR (scores : List ℝ) (x : ℝ) (hx : x ∈ scores) : x ≤ pyMaxR scores := by
  cases scores with
  | nil => cases hx
  | cons y ys =>
    rw [pyMaxR]
    rcases List.mem_cons.1 hx with h | h
    · exact le_foldl_max ys y x (Or.inl h)
    · exact le_foldl_max ys y x (Or.inr h)

/-- **C8.**  For every track whose engagement metrics are nonnegative and
do not exceed the supplied corpus maxima, the raw popularity score of
`compute_popularity` lies in [0, 1]; and for every score of a bucket of
nonnegative scores, the relative score assigned by
`compute_relative_popularity_by_genre`'s formula lies in [0.2, 1.0]. -/
theorem C8_score_ranges (t : Track) (maxPlay maxList maxYT : ℝ) (scores : List ℝ) (s : ℝ)
    (hp0 : 0 ≤ (t.LastFMPlaycount : ℝ)) (hp1 : (t.LastFMPlaycount : ℝ) ≤ maxPlay)
    (hl0 : 0 ≤ (t.LastFMListeners : ℝ)) (hl1 : (t.LastFMListeners : ℝ) ≤ maxList)
    (hy0 : 0 ≤ (t.YouTubeViews : ℝ)) (hy1 : (t.YouTubeViews : ℝ) ≤ maxYT)
    (hs : s ∈ scores) (hpos : ∀ x ∈ scores, 0 ≤ x) :
    (0 ≤ compute_popularity t maxPlay maxList maxYT ∧
      compute_popularity t maxPlay maxList maxYT ≤ 1) ∧
    ((0.2 : ℝ) ≤ relative_popularity_formula scores s ∧
      relative_popularity_formula scores s ≤ 1) := by
  have hA0 := norm_safe_nonneg (log1p (t.LastFMPlaycount : ℝ)) (log1p maxPlay)
    (log1p_nonneg _ hp0)
  have hA1 := norm_safe_le_one (log1p (t.LastFMPlaycount : ℝ)) (log1p maxPlay)
    (log1p_le_log1p _ _ hp0 hp1)
  have hB0 := norm_safe_nonneg (log1p (t.LastFMListeners : ℝ)) (log1p maxList)
    (log1p_nonneg _ hl0)
  have hB1 := norm_safe_le_one (log1p (t.LastFMListeners : ℝ)) (log1p maxList)
    (log1p_le_log1p _ _ hl0 hl1)
  have hC0 := norm_safe_nonneg (log1p (t.YouTubeViews : ℝ)) (log1p maxYT)
    (log1p_nonneg _ hy0)
  have hC1 := norm_safe_le_one (log1p (t.YouTubeViews : ℝ)) (log1p maxYT)
    (log1p_le_log1p _ _ hy0 hy1)
  constructor
  · rw [compute_popularity]
    constructor
    · have h := round4_mono (show (0 : ℝ) ≤
        norm_safe (log1p (t.LastFMPlaycount : ℝ)) (log1p maxPlay) * 0.5 +
        norm_safe (log1p (t.LastFMListeners : ℝ)) (log1p maxList) * 0.3 +
        norm_safe (log1p (t.YouTubeViews : ℝ)) (log1p maxYT) * 0.2 from by linarith)
      rwa [round4_zero] at h
    · have h := round4_mono (show
        norm_safe (log1p (t.LastFMPlaycount : ℝ)) (log1p maxPlay) * 0.5 +
        norm_safe (log1p (t.LastFMListeners : ℝ)) (log1p maxList) * 0.3 +
        norm_safe (log1p (t.YouTubeViews : ℝ)) (log1p maxYT) * 0.2 ≤ (1 : ℝ) from by linarith)
      rwa [round4_one] at h
  · rw [relative_popularity_formula]
    have hrel0 : 0 ≤ norm_safe s (pyMaxR scores) := norm_safe_nonneg _ _ (hpos s hs)
    have hrel1 : norm_safe s (pyMaxR scores) ≤ 1 :=
      norm_safe_le_one _ _ (le_pyMaxR scores s hs)
    have hsq0 : 0 ≤ Real.sqrt (norm_safe s (pyMaxR scores)) := Real.sqrt_nonneg _
    have hsq1 : Real.sqrt (norm_safe s (pyMaxR scores)) ≤ 1 := by
      have h := Real.sqrt_le_sqrt hrel1
      rwa [Real.sqrt_one] at h
    constructor
    · have h := round4_mono (show (0.2 : ℝ) ≤
        Real.sqrt (norm_safe s (pyMaxR scores)) * 0.8 + 0.2 from by linarith)
      rwa [round4_fifth] at h
    · have h := round4_mono (show
        Real.sqrt (norm_safe s (pyMaxR scores)) * 0.8 + 0.2 ≤ (1 : ℝ) from by linarith)
      rwa [round4_one] at h

/-- Fixture: a track with zero engagement metrics. -/
def metricsTrack : Track :=
  { Titulo := "Metrics", Artista := "A", Album := "",
    Ruta := "/music/metrics.flac", Bitrate := 320, Genero := GenVal.gstr "rock",
    PopularityScore := 0, RelativePopularityScore := 0,
    LastFMPlaycount := 0, LastFMListeners := 0, YouTubeViews := 0 }

/-- Witness: the score-range theorem at the zero-metrics fixture with zero
corpus maxima and the one-element score bucket. -/
theorem C8_score_ranges_witness :
    (0 : ℝ) ∈ [(0 : ℝ)] ∧
    (0 ≤ compute_popularity metricsTrack 0 0 0 ∧ compute_popularity metricsTrack 0 0 0 ≤ 1) ∧
    ((0.2 : ℝ) ≤ relative_popularity_formula [0] 0 ∧ relative_popularity_formula [0] 0 ≤ 1) :=
  ⟨List.mem_singleton.2 rfl,
   C8_score_ranges metricsTrack 0 0 0 [0] 0
     (by simp [metricsTrack]) (by simp [metricsTrack]) (by simp [metricsTrack])
     (by simp [metricsTrack]) (by simp [metricsTrack]) (by simp [metricsTrack])
     (List.mem_singleton.2 rfl) (by simp)⟩

end NeoPlaylist
